import Mathlib

/-!
# db-to-s3: a verification development of `main.go`

The program is one `main` function: it loads `config.json`, creates a
time-stamped workspace directory, lists the non-template databases of a
PostgreSQL server, dumps each one through `sh -c "psql ... > file"`, uploads
every file of the workspace to S3 and finally removes the workspace.

The embedding is shallow.  Go strings are lists of characters, the pure string
and path computations are Lean functions, and the effectful part of `main` is
a function from a `World` (the answers the environment gives to each call)
to an `Outcome` (the ordered trace of external calls, the exit status and the
file system left behind).  Log lines and prints are not part of the trace.
What a subprocess does to the file system is read off its command line as
`sh` reads it, on the lines made of plain words, blanks and redirections, and
is an answer of the environment on every other line.
-/

namespace DbToS3

/-! ## Strings -/

/-- Go strings, as lists of characters. -/
abbrev Str := List Char

/-! ## `path/filepath` on Unix -/

/-- The elements of a path: the pieces between separators, so that
`"a//b"` has the elements `a`, the empty element and `b`. -/
def splitSlash : Str → List Str
  | [] => [[]]
  | c :: cs =>
    if c = '/' then [] :: splitSlash cs
    else
      match splitSlash cs with
      | [] => [[c]]
      | e :: es => (c :: e) :: es

/-- The function `strings.Join(elems, "/")`. -/
def joinSlash : List Str → Str
  | [] => []
  | [e] => e
  | e :: es => e ++ '/' :: joinSlash es

/-- One iteration of the scanning loop of `filepath.Clean`, element by
element.  `out` is the output buffer as the stack of the elements written so
far, innermost first.  An empty element and `.` are skipped; `..` removes the
last element written when there is one that is not itself `..` (the buffer is
beyond the `dotdot` mark), is appended when the path is not rooted, and is
dropped at the root; any other element is appended. -/
def cleanStep (rooted : Bool) (out : List Str) (e : Str) : List Str :=
  if e = [] ∨ e = ['.'] then out
  else if e = ['.', '.'] then
    match out with
    | [] => if rooted then [] else [e]
    | top :: rest =>
      if top = ['.', '.'] then (if rooted then out else e :: out) else rest
  else e :: out

/-- The buffer of `filepath.Clean` after the whole path has been scanned. -/
def cleanElems (rooted : Bool) (es : List Str) : List Str :=
  es.foldl (cleanStep rooted) []

/-- The string held by the buffer of `filepath.Clean`: the leading separator
of a rooted path, then the elements separated by `/`; an empty buffer is
turned into `.`. -/
def render (rooted : Bool) (out : List Str) : Str :=
  if rooted then '/' :: joinSlash out.reverse
  else if out = [] then ['.'] else joinSlash out.reverse

/-- The function `filepath.Clean` (Unix: no volume name, separator `/`). -/
def clean (path : Str) : Str :=
  if path = [] then ['.']
  else
    let rooted := path.head? = some '/'
    render rooted (cleanElems rooted (splitSlash path))

/-- The function `filepath.Join`: the elements from the first non-empty one on
are joined with `/` and the result is cleaned; all elements empty gives the
empty string. -/
def join (elem : List Str) : Str :=
  match elem.dropWhile (fun e => e.isEmpty) with
  | [] => []
  | es => clean (joinSlash es)

/-- Removal of the trailing separators, the first loop of `filepath.Base`. -/
def stripTrailingSlashes (path : Str) : Str :=
  (path.reverse.dropWhile (fun c => c = '/')).reverse

/-- The function `filepath.Base`: the last element of the path, `.` for the
empty path and `/` for a path of separators only. -/
def base (path : Str) : Str :=
  if path = [] then ['.']
  else
    let p := stripTrailingSlashes path
    let last := ((p.reverse.takeWhile (fun c => c ≠ '/'))).reverse
    if last = [] then ['/'] else last

/-- The function `filepath.ToSlash`, the identity where the separator is `/`. -/
def toSlash (path : Str) : Str := path

/-- A path `p` lies inside directory `dir`: `dir`, a separator, and more. -/
def isUnder (dir p : Str) : Bool :=
  decide ((dir ++ ['/']) <+: p) && decide (dir.length + 1 < p.length)

/-! ## `time.Format` with the layout `2006-01-02_15-04-05` -/

/-- A civil date and time, the fields `time.Now()` is formatted from. -/
structure CivilTime where
  year : Nat
  month : Nat
  day : Nat
  hour : Nat
  minute : Nat
  second : Nat
  deriving DecidableEq, Repr

/-- The byte `'0' + d` of a decimal digit. -/
def digit (d : Nat) : Char := Nat.digitChar (d % 10)

/-- The function `appendInt` of package `time` for a non-negative `x`: the
decimal digits of `x`, zero-padded on the left to `width`.  The two- and
four-digit fields take the table-driven fast path of the Go source. -/
def appendInt (x width : Nat) : Str :=
  if width = 2 ∧ x < 100 then [digit (x / 10), digit x]
  else if width = 4 ∧ x < 10000 then
    [digit (x / 1000), digit (x / 100), digit (x / 10), digit x]
  else
    let ds := Nat.toDigits 10 x
    List.replicate (width - ds.length) '0' ++ ds

/-- The run timestamp: `t.Format("2006-01-02_15-04-05")`. -/
def timestamp (t : CivilTime) : Str :=
  appendInt t.year 4 ++ '-' :: appendInt t.month 2 ++ '-' :: appendInt t.day 2
    ++ '_' :: appendInt t.hour 2 ++ '-' :: appendInt t.minute 2
    ++ '-' :: appendInt t.second 2

/-- The instant `t1` is earlier than `t2`, by at least one second: the
fields compared in order of significance. -/
def CivilTime.earlier (a b : CivilTime) : Prop :=
  a.year < b.year ∨ (a.year = b.year ∧ (a.month < b.month ∨ (a.month = b.month ∧
  (a.day < b.day ∨ (a.day = b.day ∧ (a.hour < b.hour ∨ (a.hour = b.hour ∧
  (a.minute < b.minute ∨ (a.minute = b.minute ∧ a.second < b.second)))))))))

/-- The fields are those of a calendar date with a year of at most four
digits and a time of day. -/
def CivilTime.wellFormed (t : CivilTime) : Prop :=
  t.year ≤ 9999 ∧ 1 ≤ t.month ∧ t.month ≤ 12 ∧ 1 ≤ t.day ∧ t.day ≤ 31 ∧
  t.hour ≤ 23 ∧ t.minute ≤ 59 ∧ t.second ≤ 59

instance (a b : CivilTime) : Decidable (a.earlier b) := by
  unfold CivilTime.earlier; infer_instance

instance (t : CivilTime) : Decidable t.wellFormed := by
  unfold CivilTime.wellFormed; infer_instance

/-- Lexicographic order of strings, character by character: the order of Go's
string comparison. -/
def lexLt (s t : Str) : Prop := List.Lex (fun a b => a < b) s t

/-! ## Configuration and the strings `main` builds -/

/-- The struct `Config`, filled from `config.json`. -/
structure Config where
  S3BucketName : Str
  BackupDir : Str
  PgUser : Str
  PgPassword : Str
  PgHost : Str
  PgPort : Str
  AwsRegion : Str
  AccessKey : Str
  SecretKey : Str
  deriving DecidableEq

/-- The connection string passed to `sql.Open`. -/
def connStr (con : Config) : Str :=
  "user=".toList ++ con.PgUser ++ " dbname=postgres password=".toList ++ con.PgPassword
    ++ " host=".toList ++ con.PgHost ++ " port=".toList ++ con.PgPort
    ++ " sslmode=disable".toList

/-- The catalog query of `main`. -/
def catalogQuery : Str :=
  "SELECT datname FROM pg_database WHERE datistemplate = false;".toList

/-- The workspace directory `bkpdir := filepath.Join(con.BackupDir, timestamp)`. -/
def bkpdir (con : Config) (ts : Str) : Str := join [con.BackupDir, ts]

/-- The artifact path
`backupFile := filepath.Join(bkpdir, fmt.Sprintf("%s_backup.sql", dbName))`. -/
def backupFile (dir dbName : Str) : Str := join [dir, dbName ++ "_backup.sql".toList]

/-- The shell command
`fmt.Sprintf("psql -U %s -h %s %s > %s", con.PgUser, con.PgHost, dbName, backupFile)`. -/
def bkpcmd (con : Config) (dbName file : Str) : Str :=
  "psql -U ".toList ++ con.PgUser ++ " -h ".toList ++ con.PgHost ++ " ".toList ++ dbName
    ++ " > ".toList ++ file

/-- The argument vector of the dump subprocess, `exec.Command("sh", "-c", bkpcmd)`. -/
def dumpArgv (con : Config) (dir dbName : Str) : List Str :=
  ["sh".toList, "-c".toList, bkpcmd con dbName (backupFile dir dbName)]

/-- The shell command `fmt.Sprintf("rm -R %s", bkpdir)`. -/
def cleanupCmd (dir : Str) : Str := "rm -R ".toList ++ dir

/-- The argument vector of the cleanup subprocess,
`exec.Command("sh", "-c", fmt.Sprintf("rm -R %s", bkpdir))`. -/
def cleanupArgv (dir : Str) : List Str :=
  ["sh".toList, "-c".toList, cleanupCmd dir]

/-- The object key
`filepath.ToSlash(filepath.Join("dbbackup", timestamp, info.Name()))`. -/
def remoteKey (ts name : Str) : Str := toSlash (join ["dbbackup".toList, ts, name])

/-! ## The environment of a run -/

/-- What reading and unmarshalling `config.json` gives. -/
inductive ConfigLoad where
  | readError
  | parseError
  | loaded (con : Config)
  deriving DecidableEq

/-- One iteration of `rows.Next()` / `rows.Scan(&dbName)`: a name, or a row
whose scan returns an error. -/
inductive Row where
  | name (dbName : Str)
  | scanError
  deriving DecidableEq

/-- What `db.Query` gives: an error, or the rows that `rows.Next()` delivers
before it returns false, with `iterErr` telling whether it stopped because of
an error (`rows.Err() != nil`) rather than at the end of the result set. -/
inductive QueryResult where
  | error
  | rows (rs : List Row) (iterErr : Bool)
  deriving DecidableEq

/-- The part of the file system the run touches: the directories and the
regular files that exist, by cleaned path. -/
structure FS where
  dirs : List Str
  files : List Str
  deriving DecidableEq

/-- Effect of a successful `os.MkdirAll(dir, ...)`: `dir` exists. -/
def FS.mkdirAll (fs : FS) (dir : Str) : FS :=
  if dir ∈ fs.dirs then fs else { fs with dirs := fs.dirs ++ [dir] }

/-- The file `file` is created, or truncated when it exists. -/
def FS.writeFile (fs : FS) (file : Str) : FS :=
  if file ∈ fs.files then fs else { fs with files := fs.files ++ [file] }

/-- The path `dir` and everything inside it are removed. -/
def FS.removeAll (fs : FS) (dir : Str) : FS :=
  { dirs := fs.dirs.filter (fun p => !(decide (p = dir) || isUnder dir p)),
    files := fs.files.filter (fun p => !(decide (p = dir) || isUnder dir p)) }

/-- Bytewise order of two strings, `a ≤ b`. -/
def strLe : Str → Str → Bool
  | [], _ => true
  | _ :: _, [] => false
  | a :: as, b :: bs => decide (a < b) || (decide (a = b) && strLe as bs)

/-- Order of two paths by their elements, the first differing element
deciding: the order in which `filepath.Walk`, which reads each directory in
sorted order and descends depth-first, meets them. -/
def elemsLe : List Str → List Str → Bool
  | [], _ => true
  | _ :: _, [] => false
  | a :: as, b :: bs => if a = b then elemsLe as bs else strLe a b

/-- The relation that `filepath.Walk` visits `a` no later than `b`. -/
def walkOrder (a b : Str) : Prop := elemsLe (splitSlash a) (splitSlash b) = true

instance : DecidableRel walkOrder := fun a b => by unfold walkOrder; infer_instance

/-- The non-directory entries `filepath.Walk(root, ...)` visits, in order:
the regular files at or inside `root`. -/
def walkFiles (fs : FS) (root : Str) : List Str :=
  (fs.files.filter (fun p => decide (p = root) || isUnder root p)).insertionSort walkOrder

/-! ## The command lines given to `sh -c`

`main` builds its two command lines by string formatting and hands them to
`sh -c`, so what a subprocess does is what the shell reads in the line, not
what `main` meant to write.  The shell is modelled on the lines it reads
without any expansion or quoting: words of plain characters separated by
blanks, with output redirections `> target`.  On every other line the effect
of the subprocess is left to the environment. -/

/-- The plain characters: ASCII letters and digits and `_ - . / : @ + ,`, which
stand for themselves wherever they occur in an unquoted shell word. -/
def shPlain (c : Char) : Bool :=
  c.isAlphanum || decide (c = '_') || decide (c = '-') || decide (c = '.') ||
    decide (c = '/') || decide (c = ':') || decide (c = '@') || decide (c = '+') ||
    decide (c = ',')

/-- The pieces of a line between blanks, empty pieces included. -/
def splitBlank : Str → List Str
  | [] => [[]]
  | c :: cs =>
    if c = ' ' then [] :: splitBlank cs
    else
      match splitBlank cs with
      | [] => [[c]]
      | e :: es => (c :: e) :: es

/-- The tokens of a line: its maximal runs of non-blank characters. -/
def shTokens (line : Str) : List Str :=
  (splitBlank line).filter (fun t => !t.isEmpty)

/-- A simple command as the shell reads it: the words that become the
argument vector of the program, and the targets of the output redirections,
in the order of the line. -/
structure SimpleCommand where
  argv : List Str
  targets : List Str
  deriving DecidableEq

/-- The simple command made of a list of tokens: a token `>` takes the next
token as the target of a redirection, every other token is an argument.  A
`>` with no word after it is a syntax error. -/
def shSimple : List Str → Option SimpleCommand
  | [] => some ⟨[], []⟩
  | t :: rest =>
    if t = ['>'] then
      match rest with
      | [] => none
      | u :: rest2 =>
        if u = ['>'] then none
        else (shSimple rest2).map (fun c => { c with targets := u :: c.targets })
    else (shSimple rest).map (fun c => { c with argv := t :: c.argv })

/-- The simple command the shell reads in `line`, for the lines modelled: all
characters are plain, blanks or `>`, and `>` occurs only as a token of its
own, followed by a word. -/
def shParse (line : Str) : Option SimpleCommand :=
  if line.all (fun c => shPlain c || decide (c = ' ') || decide (c = '>')) ∧
      (shTokens line).all (fun t => decide (t = ['>']) || !t.contains '>') then
    shSimple (shTokens line)
  else none

/-- The word begins with `-`: a program that follows the utility conventions
reads it as options. -/
def dashed (s : Str) : Bool := decide (s.head? = some '-')

/-- The arguments give `psql` no option but `-U` and `-h`, which each take the
next word as their value: the client has no file to write and sends what it
prints to its output stream. -/
def clientQuiet (args : List Str) : Bool :=
  args.all (fun a => !dashed a || decide (a = "-U".toList) || decide (a = "-h".toList))

/-- The arguments are those of `rm -R operand ...`, no operand being read as
an option. -/
def removesOperands (args : List Str) : Bool :=
  decide (args.head? = some "-R".toList) && args.tail.all (fun a => !dashed a)

/-- The answers of the environment to the calls of one run.  Subprocesses,
`os.Open` and `PutObject` calls are numbered from 0 in the order `main` makes
them. -/
structure World where
  /-- The calls `os.ReadFile("config.json")` and `json.Unmarshal`. -/
  config : ConfigLoad
  /-- The call `time.Now()`. -/
  now : CivilTime
  /-- Whether `os.MkdirAll` succeeds. -/
  mkdirOk : Bool
  /-- Whether `sql.Open` succeeds. -/
  sqlOpenOk : Bool
  /-- The call `db.Query`. -/
  query : QueryResult
  /-- Whether `os.Setenv` succeeds. -/
  setenvOk : Bool
  /-- Whether the dump subprocess number `i` exits with status 0. -/
  dumpOk : Nat → Bool
  /-- Whether `session.NewSession` succeeds. -/
  sessionOk : Bool
  /-- The file system when the run starts. -/
  fs : FS
  /-- When `some i`: the walk calls back with an error after `i` files. -/
  walkErrAt : Option Nat
  /-- Whether `os.Open` of the file number `i` of the walk succeeds. -/
  openOk : Nat → Bool
  /-- Whether `PutObject` of the file number `i` of the walk succeeds. -/
  putOk : Nat → Bool
  /-- Whether the cleanup subprocess exits with status 0. -/
  rmOk : Bool
  /-- What subprocess number `i` does to the file system when it exits with
  status 0 and its command line is not one of those modelled. -/
  shellEffect : Nat → FS → FS

/-- What subprocess number `i`, started as `sh -c line`, has done to the file
system when it exits with status 0.  On a line the shell reads as a simple
command, every redirection target has been created before the program ran;
then `psql` without file options changes nothing more, and `rm -R` has removed
each of its operands.  Paths are recorded cleaned. -/
def shEffect (w : World) (i : Nat) (line : Str) (fs : FS) : FS :=
  match shParse line with
  | none => w.shellEffect i fs
  | some c =>
    let fs1 := c.targets.foldl (fun s t => s.writeFile (clean t)) fs
    match c.argv with
    | [] => fs1
    | cmd :: args =>
      if cmd = "psql".toList ∧ clientQuiet args = true then fs1
      else if cmd = "rm".toList ∧ removesOperands args = true then
        args.tail.foldl (fun s p => s.removeAll (clean p)) fs1
      else w.shellEffect i fs

/-- The external calls of a run.  A subprocess is recorded with its argument
vector, the value of `PGPASSWORD` in the environment it inherits and whether
it exited with status 0; a `PutObject` with bucket, key, the file streamed as
body and whether it succeeded. -/
inductive Event where
  | readFile (name : Str)
  | mkdirAll (path : Str)
  | sqlOpen (connStr : Str)
  | query (sql : Str)
  | setenv (key value : Str)
  | exec (argv : List Str) (pgpassword : Option Str) (ok : Bool)
  | newSession (region accessKey secretKey : Str)
  | putObject (bucket key body : Str) (ok : Bool)
  deriving DecidableEq

/-- What a run leaves: the calls made in order, the exit status of the
process, and the file system (partial effects of a failed call apart). -/
structure Outcome where
  trace : List Event
  exitCode : Nat
  fs : FS
  deriving DecidableEq

/-! ## `main` -/

/-- The loop `for rows.Next() { rows.Scan(&dbName); databases = append(...) }`:
`none` when a scan fails (`log.Fatal`), otherwise the names appended. -/
def scanRows : List Row → List Str → Option (List Str)
  | [], databases => some databases
  | Row.scanError :: _, _ => none
  | Row.name dbName :: rest, databases => scanRows rest (databases ++ [dbName])

/-- The loop `for _, dbName := range databases`, from subprocess number `i`
on: the subprocesses run, the file system, and whether the loop ran to its
end (`false`: a dump failed and `main` returned). -/
def dumpLoop (w : World) (con : Config) (dir : Str) :
    List Str → Nat → FS → List Event × FS × Bool
  | [], _, fs => ([], fs, true)
  | dbName :: rest, i, fs =>
    let ev := Event.exec (dumpArgv con dir dbName) (some con.PgPassword) (w.dumpOk i)
    if w.dumpOk i then
      let r := dumpLoop w con dir rest (i + 1)
        (shEffect w i (bkpcmd con dbName (backupFile dir dbName)) fs)
      (ev :: r.1, r.2.1, r.2.2)
    else ([ev], fs, false)

/-- The callback of `filepath.Walk` over the files of the walk, from file
number `i` on: the `PutObject` calls made and whether the walk ran to its end
(`false`: `log.Fatal` was called). -/
def uploadLoop (w : World) (con : Config) (ts : Str) : List Str → Nat → List Event × Bool
  | [], i => ([], decide (w.walkErrAt ≠ some i))
  | path :: rest, i =>
    if w.walkErrAt = some i then ([], false)
    else if w.openOk i = false then ([], false)
    else
      let ev := Event.putObject con.S3BucketName (remoteKey ts (base path)) path (w.putOk i)
      if w.putOk i then
        let r := uploadLoop w con ts rest (i + 1)
        (ev :: r.1, r.2)
      else ([ev], false)

/-- The function `main`.  Exit status 1 is `log.Fatal`, exit status 0 is a
return from `main`. -/
def main (w : World) : Outcome :=
  match w.config with
  | ConfigLoad.readError => ⟨[Event.readFile "config.json".toList], 1, w.fs⟩
  | ConfigLoad.parseError => ⟨[Event.readFile "config.json".toList], 1, w.fs⟩
  | ConfigLoad.loaded con =>
    let ts := timestamp w.now
    let dir := bkpdir con ts
    let fs1 := if w.mkdirOk then w.fs.mkdirAll dir else w.fs
    let t1 := [Event.readFile "config.json".toList, Event.mkdirAll dir,
      Event.sqlOpen (connStr con)]
    if w.sqlOpenOk = false then ⟨t1, 1, fs1⟩
    else
      let t2 := t1 ++ [Event.query catalogQuery]
      match w.query with
      | QueryResult.error => ⟨t2, 1, fs1⟩
      | QueryResult.rows rs _ =>
        match scanRows rs [] with
        | none => ⟨t2, 1, fs1⟩
        | some databases =>
          let t3 := t2 ++ [Event.setenv "PGPASSWORD".toList con.PgPassword]
          if w.setenvOk = false then ⟨t3, 1, fs1⟩
          else
            let d := dumpLoop w con dir databases 0 fs1
            if d.2.2 = false then ⟨t3 ++ d.1, 0, d.2.1⟩
            else
              let t4 := t3 ++ d.1 ++
                [Event.newSession con.AwsRegion con.AccessKey con.SecretKey]
              if w.sessionOk = false then ⟨t4, 1, d.2.1⟩
              else
                let u := uploadLoop w con ts
                  (walkFiles d.2.1 (join [con.BackupDir, ts])) 0
                if u.2 = false then ⟨t4 ++ u.1, 1, d.2.1⟩
                else
                  let t5 := t4 ++ u.1 ++
                    [Event.exec (cleanupArgv dir) (some con.PgPassword) w.rmOk]
                  if w.rmOk then
                    ⟨t5, 0, shEffect w databases.length (cleanupCmd dir) d.2.1⟩
                  else ⟨t5, 1, d.2.1⟩

/-! ## Observations on a trace -/

/-- The argument vectors of the subprocesses of a trace, in order. -/
def execArgvs : List Event → List (List Str)
  | [] => []
  | Event.exec argv _ _ :: rest => argv :: execArgvs rest
  | _ :: rest => execArgvs rest

/-- The `PutObject` calls of a trace, in order: bucket, key, body, result. -/
def putCalls : List Event → List (Str × Str × Str × Bool)
  | [] => []
  | Event.putObject b k f ok :: rest => (b, k, f, ok) :: putCalls rest
  | _ :: rest => putCalls rest


/-- The successful uploads of a trace: the files streamed, in order. -/
def uploaded (t : List Event) : List Str :=
  ((putCalls t).filter (fun c => c.2.2.2)).map (fun c => c.2.2.1)

/-- The files of the `PutObject` calls attempted in a trace, in order. -/
def putBodies (t : List Event) : List Str := (putCalls t).map (fun c => c.2.2.1)

/-- The keys of the `PutObject` calls of a trace, in order. -/
def putKeys (t : List Event) : List Str := (putCalls t).map (fun c => c.2.1)

/-- The buckets of the `PutObject` calls of a trace, in order. -/
def putBuckets (t : List Event) : List Str := (putCalls t).map (fun c => c.1)

/-- The workspace directory of the run of `w` under configuration `con`. -/
def workspace (w : World) (con : Config) : Str := bkpdir con (timestamp w.now)

/-- The trace of a run up to the dump loop. -/
def prelude (w : World) (con : Config) : List Event :=
  [Event.readFile "config.json".toList, Event.mkdirAll (workspace w con),
   Event.sqlOpen (connStr con), Event.query catalogQuery,
   Event.setenv "PGPASSWORD".toList con.PgPassword]

/-- The file system when the dump loop starts. -/
def fsAtDumps (w : World) (con : Config) : FS :=
  if w.mkdirOk then w.fs.mkdirAll (workspace w con) else w.fs

/-- The run reaches the dump loop with the list `names`: the configuration
loads, the connection opens, the query succeeds and every row scans, giving
`names`, and `PGPASSWORD` is set. -/
def reachesDumps (w : World) (con : Config) (names : List Str) : Prop :=
  w.config = ConfigLoad.loaded con ∧ w.sqlOpenOk = true ∧
  (∃ rs e, w.query = QueryResult.rows rs e ∧ scanRows rs [] = some names) ∧
  w.setenvOk = true

/-- The run reaches the upload walk: it reaches the dump loop with `names`,
every dump exits with status 0 and the AWS session is created. -/
def reachesUploads (w : World) (con : Config) (names : List Str) : Prop :=
  reachesDumps w con names ∧ (∀ i, i < names.length → w.dumpOk i = true) ∧
  w.sessionOk = true

/-- The files the upload walk yields, in walk order, after the dumps of
`names` have all succeeded. -/
def walked (w : World) (con : Config) (names : List Str) : List Str :=
  walkFiles (dumpLoop w con (workspace w con) names 0 (fsAtDumps w con)).2.1
    (join [con.BackupDir, timestamp w.now])

/-- The same world with another database password in the configuration. -/
def World.withPassword (w : World) (pw : Str) : World :=
  match w.config with
  | ConfigLoad.loaded con =>
    { w with config := ConfigLoad.loaded { con with PgPassword := pw } }
  | _ => w

/-! ## Sample runs -/

/-- A configuration: bucket `backups`, root directory `/var/backups`. -/
def sampleConfig : Config :=
  { S3BucketName := "backups".toList, BackupDir := "/var/backups".toList,
    PgUser := "postgres".toList, PgPassword := "s3cret".toList,
    PgHost := "localhost".toList, PgPort := "5432".toList,
    AwsRegion := "eu-west-1".toList, AccessKey := "AK".toList, SecretKey := "SK".toList }

/-- A run at 2024-01-01 00:00:00 over the databases `app` and `analytics`
in which every call succeeds. -/
def sampleWorld : World :=
  { config := ConfigLoad.loaded sampleConfig,
    now := ⟨2024, 1, 1, 0, 0, 0⟩,
    mkdirOk := true, sqlOpenOk := true,
    query := QueryResult.rows [Row.name "app".toList, Row.name "analytics".toList] false,
    setenvOk := true, dumpOk := fun _ => true, sessionOk := true,
    fs := ⟨[], []⟩, walkErrAt := none, openOk := fun _ => true, putOk := fun _ => true,
    rmOk := true, shellEffect := fun _ fs => fs }

/-- The sample run, but the dump of `analytics`, the second database, exits
with a non-zero status. -/
def secondDumpFails : World :=
  { sampleWorld with dumpOk := fun i => decide (i ≠ 1) }

/-- The sample run, but the workspace directory cannot be created and, the
directory missing, the redirection of the first dump fails. -/
def mkdirFails : World :=
  { sampleWorld with mkdirOk := false, dumpOk := fun _ => false }

/-- The sample run, but the connection drops after the row `app` has been
delivered: `rows.Next()` returns false with `rows.Err()` set, and the row
`analytics` is never seen. -/
def iterationBreaks : World :=
  { sampleWorld with query := QueryResult.rows [Row.name "app".toList] true }

/-- The sample run, but the upload of the second file of the walk fails. -/
def secondPutFails : World :=
  { sampleWorld with putOk := fun i => decide (i ≠ 1) }

/-- The sample run over the single database named `../app`. -/
def dotDotWorld : World :=
  { sampleWorld with query := QueryResult.rows [Row.name "../app".toList] false }

/-- The sample run over the single database named `my db`. -/
def blankNameWorld : World :=
  { sampleWorld with query := QueryResult.rows [Row.name "my db".toList] false }

/-- The sample run over the two databases named `a b` and `a c`. -/
def twoBlankNamesWorld : World :=
  { sampleWorld with
    query := QueryResult.rows [Row.name "a b".toList, Row.name "a c".toList] false }

/-- The sample run with the root directory `/var/my backups`, started where
the directories `/var/my` and `backups/2024-01-01_00-00-00` exist. -/
def blankDirWorld : World :=
  { sampleWorld with
    config := ConfigLoad.loaded { sampleConfig with BackupDir := "/var/my backups".toList },
    fs := ⟨["/var/my".toList, "backups/2024-01-01_00-00-00".toList], []⟩ }

/-! ## Path elements -/

/-- A proper path element: not empty, without separator, neither `.` nor `..`. -/
def isName (e : Str) : Prop := e ≠ [] ∧ '/' ∉ e ∧ e ≠ ['.'] ∧ e ≠ ['.', '.']

/-- The buffers `filepath.Clean` can hold, innermost element first: every
element is non-empty, has no separator and is not `.`; `..` elements lie
outermost, and a rooted path has none. -/
def Canon (rooted : Bool) (out : List Str) : Prop :=
  (∀ e ∈ out, e ≠ [] ∧ '/' ∉ e ∧ e ≠ ['.']) ∧
  (rooted = true → ['.', '.'] ∉ out) ∧
  out.Chain' (fun top below => top = ['.', '.'] → below = ['.', '.'])

/-- What `filepath.Clean` has written before the element it writes last:
nothing, the root separator, or the earlier elements and a separator. -/
def lead (rooted : Bool) (out : List Str) : Str :=
  if out = [] then (if rooted then ['/'] else []) else render rooted out ++ ['/']

/-- The object key the specification gives the artifact of database `name`:
`dbbackup/<runTimestamp>/<name>_backup.sql`. -/
def specKey (ts name : Str) : Str :=
  "dbbackup/".toList ++ ts ++ "/".toList ++ name ++ "_backup.sql".toList

/-- The workspace directory is fresh: no file exists at or inside it when the
run starts. -/
def freshWorkspace (w : World) (con : Config) : Prop :=
  ∀ p ∈ w.fs.files, p ≠ workspace w con ∧ isUnder (workspace w con) p = false

/-- Nothing fails in the upload walk over `n` files nor in the cleanup. -/
def uploadsSucceed (w : World) (n : Nat) : Prop :=
  w.walkErrAt = none ∧ (∀ i, i < n → w.openOk i = true) ∧
  (∀ i, i < n → w.putOk i = true) ∧ w.rmOk = true

/-! ## Plain words -/

/-- Every character of the string is a plain character of shell words. -/
def Plain (s : Str) : Prop := ∀ c ∈ s, shPlain c = true

/-- A string that the shell reads as one word, or as nothing when it is
empty, and that no program reads as options: its characters are plain and it
does not begin with `-`. -/
def shWord (s : Str) : Prop := Plain s ∧ dashed s = false

/-- The tokens a blank-free string contributes to a line: itself, or none when
it is empty. -/
def wordOf (s : Str) : List Str := if s = [] then [] else [s]

/-- The command lines of the run are made of plain words: the database user,
the host and the workspace path are plain and do not begin with `-`, and so is
every database name, which moreover has no path separator. -/
def plainWords (w : World) (con : Config) (names : List Str) : Prop :=
  shWord con.PgUser ∧ shWord con.PgHost ∧ shWord (workspace w con) ∧
  ∀ n ∈ names, shWord n ∧ '/' ∉ n


/-! # Theorems -/

/-! ## Traces -/

theorem execArgvs_append (a b : List Event) :
    execArgvs (a ++ b) = execArgvs a ++ execArgvs b := by
  induction a with
  | nil => rfl
  | cons e a ih => cases e <;> simp [execArgvs, ih]

theorem putCalls_append (a b : List Event) :
    putCalls (a ++ b) = putCalls a ++ putCalls b := by
  induction a with
  | nil => rfl
  | cons e a ih => cases e <;> simp [putCalls, ih]

theorem execArgvs_prelude (w : World) (con : Config) : execArgvs (prelude w con) = [] := rfl

theorem putCalls_prelude (w : World) (con : Config) : putCalls (prelude w con) = [] := rfl

/-- The run from the dump loop on, once it is known to be reached. -/
theorem main_of_reachesDumps (w : World) (con : Config) (names : List Str)
    (h : reachesDumps w con names) :
    main w =
      (let d := dumpLoop w con (workspace w con) names 0 (fsAtDumps w con)
       if d.2.2 = false then ⟨prelude w con ++ d.1, 0, d.2.1⟩
       else
         let t4 := prelude w con ++ d.1 ++
           [Event.newSession con.AwsRegion con.AccessKey con.SecretKey]
         if w.sessionOk = false then ⟨t4, 1, d.2.1⟩
         else
           let u := uploadLoop w con (timestamp w.now)
             (walkFiles d.2.1 (join [con.BackupDir, timestamp w.now])) 0
           if u.2 = false then ⟨t4 ++ u.1, 1, d.2.1⟩
           else
             let t5 := t4 ++ u.1 ++
               [Event.exec (cleanupArgv (workspace w con)) (some con.PgPassword) w.rmOk]
             if w.rmOk then
               ⟨t5, 0, shEffect w names.length (cleanupCmd (workspace w con)) d.2.1⟩
             else ⟨t5, 1, d.2.1⟩) := by
  obtain ⟨hc, ho, ⟨rs, e, hq, hs⟩, he⟩ := h
  simp only [main, hc, ho, hq, hs, he, workspace, prelude, fsAtDumps]
  simp

/-! ## The dump loop -/

/-- A dump loop whose subprocess number `i + k` is the first to fail runs the
first `k + 1` dumps, makes no upload and does not run to its end. -/
theorem dumpLoop_fail (w : World) (con : Config) (dir : Str) :
    ∀ (names : List Str) (i : Nat) (fs : FS) (k : Nat), k < names.length →
      (∀ j, j < k → w.dumpOk (i + j) = true) → w.dumpOk (i + k) = false →
      (dumpLoop w con dir names i fs).2.2 = false ∧
      execArgvs (dumpLoop w con dir names i fs).1
        = (names.take (k + 1)).map (dumpArgv con dir) ∧
      putCalls (dumpLoop w con dir names i fs).1 = [] := by
  intro names
  induction names with
  | nil => intro i fs k hk; simp at hk
  | cons n rest ih =>
    intro i fs k hk hok hfail
    cases k with
    | zero =>
      have h0 : w.dumpOk i = false := by simpa using hfail
      simp [dumpLoop, h0, execArgvs, putCalls]
    | succ k =>
      have h0 : w.dumpOk i = true := by simpa using hok 0 (Nat.succ_pos k)
      have hk2 : k < rest.length := by simpa using hk
      have hok2 : ∀ j, j < k → w.dumpOk (i + 1 + j) = true := by
        intro j hj
        have := hok (j + 1) (Nat.succ_lt_succ hj)
        rwa [show i + (j + 1) = i + 1 + j by omega] at this
      have hfail2 : w.dumpOk (i + 1 + k) = false := by
        rwa [show i + (k + 1) = i + 1 + k by omega] at hfail
      obtain ⟨h1, h2, h3⟩ := ih (i + 1) (shEffect w i (bkpcmd con n (backupFile dir n)) fs) k
        hk2 hok2 hfail2
      simp [dumpLoop, h0, execArgvs, putCalls, h1, h2, h3]

/-- A dump loop in which no dump fails runs the dump of every database, in
order, and runs to its end. -/
theorem dumpLoop_ok (w : World) (con : Config) (dir : Str) :
    ∀ (names : List Str) (i : Nat) (fs : FS),
      (∀ j, j < names.length → w.dumpOk (i + j) = true) →
      (dumpLoop w con dir names i fs).2.2 = true ∧
      execArgvs (dumpLoop w con dir names i fs).1 = names.map (dumpArgv con dir) ∧
      putCalls (dumpLoop w con dir names i fs).1 = [] := by
  intro names
  induction names with
  | nil => intro i fs _; simp [dumpLoop, execArgvs, putCalls]
  | cons n rest ih =>
    intro i fs hok
    have h0 : w.dumpOk i = true := by simpa using hok 0 (by simp)
    have hok2 : ∀ j, j < rest.length → w.dumpOk (i + 1 + j) = true := by
      intro j hj
      have := hok (j + 1) (by simpa using hj)
      rwa [show i + (j + 1) = i + 1 + j by omega] at this
    obtain ⟨h1, h3, h4⟩ := ih (i + 1) (shEffect w i (bkpcmd con n (backupFile dir n)) fs) hok2
    simp [dumpLoop, h0, execArgvs, putCalls, h1, h3, h4]

/-- The file system after a dump loop in which no dump fails and every dump
writes its artifact file and nothing else. -/
theorem dumpLoop_fs (w : World) (con : Config) (dir : Str) :
    ∀ (names : List Str) (i : Nat) (fs : FS),
      (∀ j, j < names.length → w.dumpOk (i + j) = true) →
      (∀ n ∈ names, ∀ (k : Nat) (s : FS),
        shEffect w k (bkpcmd con n (backupFile dir n)) s = s.writeFile (backupFile dir n)) →
      (dumpLoop w con dir names i fs).2.1
        = names.foldl (fun s n => s.writeFile (backupFile dir n)) fs := by
  intro names
  induction names with
  | nil => intro i fs _ _; simp [dumpLoop]
  | cons n rest ih =>
    intro i fs hok heff
    have h0 : w.dumpOk i = true := by simpa using hok 0 (by simp)
    have hok2 : ∀ j, j < rest.length → w.dumpOk (i + 1 + j) = true := by
      intro j hj
      have := hok (j + 1) (by simpa using hj)
      rwa [show i + (j + 1) = i + 1 + j by omega] at this
    have h1 := ih (i + 1) (shEffect w i (bkpcmd con n (backupFile dir n)) fs) hok2
      (fun m hm => heff m (List.mem_cons_of_mem _ hm))
    simp only [dumpLoop, h0, if_true, List.foldl_cons]
    rw [h1, heff n (by simp)]

/-- No dump command line is the cleanup command line. -/
theorem dumpArgv_ne_cleanupArgv (con : Config) (dir dir2 name : Str) :
    dumpArgv con dir name ≠ cleanupArgv dir2 := by
  simp [dumpArgv, cleanupArgv, bkpcmd, cleanupCmd]

/-- Claim C1: when the run reaches the dump loop with the enumerated list
`names` and the dump of the `k`-th database (counting from 1) is the first to
fail, the subprocesses of the run are exactly the dumps of databases `1..k`
in enumeration order, no `PutObject` call is made and the cleanup command is
never run. -/
theorem dump_failure_stops_run (w : World) (con : Config) (names : List Str) (k : Nat)
    (hreach : reachesDumps w con names) (hk1 : 1 ≤ k) (hk : k ≤ names.length)
    (hok : ∀ i, i + 1 < k → w.dumpOk i = true) (hfail : w.dumpOk (k - 1) = false) :
    execArgvs (main w).trace = (names.take k).map (dumpArgv con (workspace w con)) ∧
    putCalls (main w).trace = [] ∧
    cleanupArgv (workspace w con) ∉ execArgvs (main w).trace := by
  obtain ⟨k, rfl⟩ : ∃ k0, k = k0 + 1 := ⟨k - 1, by omega⟩
  have hd := dumpLoop_fail w con (workspace w con) names 0 (fsAtDumps w con) k
    (by omega) (by intro j hj; simpa using hok j (by omega)) (by simpa using hfail)
  obtain ⟨h1, h2, h3⟩ := hd
  have hm := main_of_reachesDumps w con names hreach
  simp only [h1, if_true] at hm
  have he : execArgvs (main w).trace
      = (names.take (k + 1)).map (dumpArgv con (workspace w con)) := by
    rw [hm]; simp [execArgvs_append, execArgvs_prelude, h2]
  refine ⟨he, ?_, ?_⟩
  · rw [hm]; simp [putCalls_append, putCalls_prelude, h3]
  · rw [he]
    intro hmem
    obtain ⟨n, _, hn⟩ := List.mem_map.mp hmem
    exact dumpArgv_ne_cleanupArgv con _ _ n hn

/-- Witness for claim C1 at the run whose second dump fails. -/
theorem dump_failure_stops_run_witness :
    execArgvs (main secondDumpFails).trace
      = (["app".toList, "analytics".toList].take 2).map
          (dumpArgv sampleConfig (workspace secondDumpFails sampleConfig)) ∧
    putCalls (main secondDumpFails).trace = [] ∧
    cleanupArgv (workspace secondDumpFails sampleConfig)
      ∉ execArgvs (main secondDumpFails).trace :=
  dump_failure_stops_run secondDumpFails sampleConfig ["app".toList, "analytics".toList] 2
    ⟨rfl, rfl, ⟨_, _, rfl, rfl⟩, rfl⟩ (by decide) (by decide)
    (by intro i hi; have : i = 0 := by omega
        subst this; rfl)
    (by decide)

/-- Claim C2, the run the code gets wrong: the dump of `app` succeeds, the
dump of `analytics`, the second of two databases, exits non-zero, nothing is
uploaded, and `main` returns, so that the process exits with status 0. -/
theorem second_dump_failure_exits_zero :
    (main secondDumpFails).trace =
      prelude secondDumpFails sampleConfig ++
      [Event.exec (dumpArgv sampleConfig "/var/backups/2024-01-01_00-00-00".toList
          "app".toList) (some "s3cret".toList) true,
       Event.exec (dumpArgv sampleConfig "/var/backups/2024-01-01_00-00-00".toList
          "analytics".toList) (some "s3cret".toList) false] ∧
    putCalls (main secondDumpFails).trace = [] ∧
    (main secondDumpFails).exitCode = 0 := by
  decide

/-- Claim C7, the run the code gets wrong: `os.MkdirAll` fails, and `main`
goes on to open the connection, query the catalog and start the dump of
`app`; when that dump fails it returns with exit status 0. -/
theorem mkdir_failure_is_ignored :
    mkdirFails.mkdirOk = false ∧
    (main mkdirFails).trace =
      [Event.readFile "config.json".toList,
       Event.mkdirAll "/var/backups/2024-01-01_00-00-00".toList,
       Event.sqlOpen (connStr sampleConfig),
       Event.query catalogQuery,
       Event.setenv "PGPASSWORD".toList "s3cret".toList,
       Event.exec (dumpArgv sampleConfig "/var/backups/2024-01-01_00-00-00".toList
          "app".toList) (some "s3cret".toList) false] ∧
    (main mkdirFails).exitCode = 0 := by
  decide

/-- Claim C8, the run the code gets wrong: row iteration stops with an error
after the row `app`; `main` never looks at `rows.Err()`, dumps and uploads
`app` alone, removes the workspace and exits with status 0. -/
theorem iteration_error_is_ignored :
    iterationBreaks.query = QueryResult.rows [Row.name "app".toList] true ∧
    execArgvs (main iterationBreaks).trace =
      [dumpArgv sampleConfig "/var/backups/2024-01-01_00-00-00".toList "app".toList,
       cleanupArgv "/var/backups/2024-01-01_00-00-00".toList] ∧
    putKeys (main iterationBreaks).trace
      = ["dbbackup/2024-01-01_00-00-00/app_backup.sql".toList] ∧
    (main iterationBreaks).exitCode = 0 := by
  decide

/-! ## The upload walk -/

/-- An upload walk whose `PutObject` number `i + m` is the first call to fail
attempts the first `m + 1` files, uploads the first `m`, and does not run to
its end. -/
theorem uploadLoop_fail (w : World) (con : Config) (ts : Str) :
    ∀ (files : List Str) (i m : Nat), m < files.length →
      (∀ j, j ≤ m → w.walkErrAt ≠ some (i + j)) →
      (∀ j, j ≤ m → w.openOk (i + j) = true) →
      (∀ j, j < m → w.putOk (i + j) = true) → w.putOk (i + m) = false →
      (uploadLoop w con ts files i).2 = false ∧
      putBodies (uploadLoop w con ts files i).1 = files.take (m + 1) ∧
      uploaded (uploadLoop w con ts files i).1 = files.take m ∧
      execArgvs (uploadLoop w con ts files i).1 = [] := by
  intro files
  induction files with
  | nil => intro i m hm; simp at hm
  | cons f rest ih =>
    intro i m hm hwalk hopen hput hfail
    have hw0 : w.walkErrAt ≠ some i := by simpa using hwalk 0 (Nat.zero_le m)
    have ho0 : w.openOk i = true := by simpa using hopen 0 (Nat.zero_le m)
    cases m with
    | zero =>
      have hp0 : w.putOk i = false := by simpa using hfail
      simp [uploadLoop, hw0, ho0, hp0, putBodies, uploaded, putCalls, execArgvs]
    | succ m =>
      have hp0 : w.putOk i = true := by simpa using hput 0 (Nat.succ_pos m)
      have hm2 : m < rest.length := by simpa using hm
      have e1 : ∀ j, i + (j + 1) = i + 1 + j := by intro j; omega
      obtain ⟨h1, h2, h3, h4⟩ := ih (i + 1) m hm2
        (by intro j hj; rw [← e1]; exact hwalk (j + 1) (by omega))
        (by intro j hj; rw [← e1]; exact hopen (j + 1) (by omega))
        (by intro j hj; rw [← e1]; exact hput (j + 1) (by omega))
        (by rw [← e1]; exact hfail)
      simp only [putBodies, uploaded] at h2 h3
      simp [uploadLoop, hw0, ho0, hp0, putBodies, uploaded, putCalls, execArgvs, h1, h2,
        h3, h4]

/-- Claim C4: when the run reaches the upload walk, the walk yields the files
`walked w con names`, and `PutObject` fails for the `m`-th of them (counting
from 1) after succeeding for the files before it, then exactly the first
`m - 1` files have been uploaded, in walk order, the `PutObject` calls
attempted are those of the first `m` files and no other, and the cleanup
command is never run. -/
theorem upload_failure_stops_run (w : World) (con : Config) (names : List Str) (m : Nat)
    (hreach : reachesUploads w con names) (hm1 : 1 ≤ m)
    (hm : m ≤ (walked w con names).length)
    (hwalk : ∀ i, i < m → w.walkErrAt ≠ some i)
    (hopen : ∀ i, i < m → w.openOk i = true)
    (hput : ∀ i, i + 1 < m → w.putOk i = true) (hfail : w.putOk (m - 1) = false) :
    uploaded (main w).trace = (walked w con names).take (m - 1) ∧
    putBodies (main w).trace = (walked w con names).take m ∧
    cleanupArgv (workspace w con) ∉ execArgvs (main w).trace := by
  obtain ⟨m, rfl⟩ : ∃ m0, m = m0 + 1 := ⟨m - 1, by omega⟩
  obtain ⟨hd, hall, hsess⟩ := hreach
  obtain ⟨d1, d3, d4⟩ :=
    dumpLoop_ok w con (workspace w con) names 0 (fsAtDumps w con)
      (by intro j hj; simpa using hall j hj)
  obtain ⟨u1, u2, u3, u4⟩ := uploadLoop_fail w con (timestamp w.now)
    (walked w con names) 0 m (by omega)
    (by intro j hj; simpa using hwalk j (by omega))
    (by intro j hj; simpa using hopen j (by omega))
    (by intro j hj; simpa using hput j (by omega)) (by simpa using hfail)
  have hm := main_of_reachesDumps w con names hd
  simp only [walked] at u1 u2 u3 u4
  simp only [d1, hsess, u1, if_true, if_false, Bool.true_eq_false] at hm
  have hp : putCalls (main w).trace = putCalls (uploadLoop w con (timestamp w.now)
      (walkFiles (dumpLoop w con (workspace w con) names 0 (fsAtDumps w con)).2.1
        (join [con.BackupDir, timestamp w.now])) 0).1 := by
    rw [hm]; simp [putCalls_append, putCalls_prelude, d4, putCalls]
  have he : execArgvs (main w).trace = names.map (dumpArgv con (workspace w con)) := by
    rw [hm]; simp [execArgvs_append, execArgvs_prelude, d3, u4, execArgvs]
  refine ⟨?_, ?_, ?_⟩
  · simp only [uploaded, hp, walked] at u3 ⊢
    simpa using u3
  · simp only [putBodies, hp, walked] at u2 ⊢
    exact u2
  · rw [he]
    intro hmem
    obtain ⟨n, _, hn⟩ := List.mem_map.mp hmem
    exact dumpArgv_ne_cleanupArgv con _ _ n hn

/-- Witness for claim C4 at the run whose second upload fails. -/
theorem upload_failure_stops_run_witness :
    reachesUploads secondPutFails sampleConfig ["app".toList, "analytics".toList] ∧
    uploaded (main secondPutFails).trace
      = (walked secondPutFails sampleConfig ["app".toList, "analytics".toList]).take (2 - 1) ∧
    putBodies (main secondPutFails).trace
      = (walked secondPutFails sampleConfig ["app".toList, "analytics".toList]).take 2 ∧
    cleanupArgv (workspace secondPutFails sampleConfig)
      ∉ execArgvs (main secondPutFails).trace :=
  have hreach : reachesUploads secondPutFails sampleConfig
      ["app".toList, "analytics".toList] :=
    ⟨⟨rfl, rfl, ⟨_, _, rfl, rfl⟩, rfl⟩, fun _ _ => rfl, rfl⟩
  ⟨hreach,
   upload_failure_stops_run secondPutFails sampleConfig ["app".toList, "analytics".toList] 2
    hreach (by decide) (by decide) (fun _ _ => by simp [secondPutFails, sampleWorld])
    (fun _ _ => rfl)
    (by intro i hi; have : i = 0 := by omega
        subst this; rfl)
    (by decide)⟩

/-! ## The password and the subprocesses -/

theorem shEffect_congr (w v : World) (hsh : v.shellEffect = w.shellEffect) (i : Nat)
    (line : Str) (fs : FS) : shEffect v i line fs = shEffect w i line fs := by
  simp [shEffect, hsh]

theorem dumpLoop_congr (w v : World) (con cov : Config) (dir : Str)
    (hd : v.dumpOk = w.dumpOk) (hsh : v.shellEffect = w.shellEffect)
    (hu : cov.PgUser = con.PgUser) (hh : cov.PgHost = con.PgHost) :
    ∀ (names : List Str) (i : Nat) (fs : FS),
      (dumpLoop v cov dir names i fs).2 = (dumpLoop w con dir names i fs).2 ∧
      execArgvs (dumpLoop v cov dir names i fs).1
        = execArgvs (dumpLoop w con dir names i fs).1 := by
  intro names
  induction names with
  | nil => intro i fs; simp [dumpLoop]
  | cons n rest ih =>
    intro i fs
    have hb : bkpcmd cov n (backupFile dir n) = bkpcmd con n (backupFile dir n) := by
      simp [bkpcmd, hu, hh]
    obtain ⟨h1, h2⟩ := ih (i + 1) (shEffect w i (bkpcmd con n (backupFile dir n)) fs)
    cases h0 : w.dumpOk i <;>
      simp [dumpLoop, hd, h0, execArgvs, h1, h2, dumpArgv, hb, shEffect_congr w v hsh]

theorem uploadLoop_congr (w v : World) (con cov : Config) (ts : Str)
    (h1 : v.walkErrAt = w.walkErrAt) (h2 : v.openOk = w.openOk) (h3 : v.putOk = w.putOk)
    (hb : cov.S3BucketName = con.S3BucketName) :
    ∀ (files : List Str) (i : Nat),
      uploadLoop v cov ts files i = uploadLoop w con ts files i := by
  intro files
  induction files with
  | nil => intro i; simp [uploadLoop, h1]
  | cons f rest ih =>
    intro i
    simp [uploadLoop, ih, h1, h2, h3, hb]

theorem execArgvs_uploadLoop (w : World) (con : Config) (ts : Str) :
    ∀ (files : List Str) (i : Nat), execArgvs (uploadLoop w con ts files i).1 = [] := by
  intro files
  induction files with
  | nil => intro i; simp [uploadLoop, execArgvs]
  | cons f rest ih =>
    intro i
    simp only [uploadLoop]
    split
    · rfl
    · split
      · rfl
      · split
        · simp [execArgvs, ih]
        · simp [execArgvs]

/-- Every subprocess of a dump loop inherits `PGPASSWORD` set to the
configured password. -/
theorem dumpLoop_env (w : World) (con : Config) (dir : Str) :
    ∀ (names : List Str) (i : Nat) (fs : FS) (argv : List Str) (p : Option Str) (ok : Bool),
      Event.exec argv p ok ∈ (dumpLoop w con dir names i fs).1 →
      p = some con.PgPassword := by
  intro names
  induction names with
  | nil => intro i fs argv p ok h; simp [dumpLoop] at h
  | cons n rest ih =>
    intro i fs argv p ok h
    cases hd : w.dumpOk i
    · simp [dumpLoop, hd] at h
      exact h.2.1
    · simp [dumpLoop, hd] at h
      rcases h with h | h
      · exact h.2.1
      · exact ih _ _ _ _ _ h

theorem uploadLoop_no_exec (w : World) (con : Config) (ts : Str) :
    ∀ (files : List Str) (i : Nat) (argv : List Str) (p : Option Str) (ok : Bool),
      Event.exec argv p ok ∉ (uploadLoop w con ts files i).1 := by
  intro files
  induction files with
  | nil => intro i argv p ok; simp [uploadLoop]
  | cons f rest ih =>
    intro i argv p ok
    simp only [uploadLoop]
    split
    · simp
    · split
      · simp
      · split
        · simp [ih]
        · simp

/-- Two runs whose worlds and configurations agree on everything but the
password start the same subprocesses with the same argument vectors. -/
theorem execArgvs_main_congr (w v : World) (con cov : Config)
    (hc : w.config = ConfigLoad.loaded con) (hv : v.config = ConfigLoad.loaded cov)
    (hnow : v.now = w.now) (hmk : v.mkdirOk = w.mkdirOk) (hso : v.sqlOpenOk = w.sqlOpenOk)
    (hq : v.query = w.query) (hse : v.setenvOk = w.setenvOk) (hd : v.dumpOk = w.dumpOk)
    (hss : v.sessionOk = w.sessionOk) (hfs : v.fs = w.fs)
    (hwe : v.walkErrAt = w.walkErrAt) (hop : v.openOk = w.openOk) (hpu : v.putOk = w.putOk)
    (hrm : v.rmOk = w.rmOk) (hsh : v.shellEffect = w.shellEffect)
    (hdir : cov.BackupDir = con.BackupDir)
    (hu : cov.PgUser = con.PgUser) (hh : cov.PgHost = con.PgHost)
    (hb : cov.S3BucketName = con.S3BucketName) :
    execArgvs (main v).trace = execArgvs (main w).trace := by
  have e1 := fun names i fs =>
    (dumpLoop_congr w v con cov (join [con.BackupDir, timestamp w.now]) hd hsh hu hh
      names i fs).1
  have e2 := fun names i fs =>
    (dumpLoop_congr w v con cov (join [con.BackupDir, timestamp w.now]) hd hsh hu hh
      names i fs).2
  have e3 := uploadLoop_congr w v con cov (timestamp w.now) hwe hop hpu hb
  simp only [main, hc, hv, bkpdir, hnow, hmk, hso, hq, hse, hss, hfs, hrm, hdir]
  cases ho : w.sqlOpenOk
  · simp [execArgvs]
  · cases hq2 : w.query with
    | error => simp [execArgvs]
    | rows rs e =>
      cases hs : scanRows rs [] with
      | none => simp [execArgvs, hs]
      | some names =>
        cases he : w.setenvOk
        · simp [execArgvs, hs]
        · simp only [hs, e1, e3, Bool.true_eq_false, if_false]
          split_ifs <;>
            simp [execArgvs_append, execArgvs, e2, execArgvs_uploadLoop, cleanupArgv]

/-- Every subprocess of a run inherits `PGPASSWORD` set to the configured
password. -/
theorem exec_env_main (w : World) (con : Config) (argv : List Str) (p : Option Str)
    (ok : Bool) (hc : w.config = ConfigLoad.loaded con)
    (hmem : Event.exec argv p ok ∈ (main w).trace) : p = some con.PgPassword := by
  have hd := dumpLoop_env w con (workspace w con)
  have hu := uploadLoop_no_exec w con (timestamp w.now)
  cases ho : w.sqlOpenOk
  · simp [main, hc, ho] at hmem
  · cases hq : w.query with
    | error => simp [main, hc, ho, hq] at hmem
    | rows rs e =>
      cases hs : scanRows rs [] with
      | none => simp [main, hc, ho, hq, hs] at hmem
      | some names =>
        cases he : w.setenvOk
        · simp [main, hc, ho, hq, hs, he] at hmem
        · rw [main_of_reachesDumps w con names ⟨hc, ho, ⟨rs, e, hq, hs⟩, he⟩] at hmem
          simp only [] at hmem
          split_ifs at hmem <;> simp [prelude] at hmem <;>
            first
            | exact hd _ _ _ _ _ _ hmem
            | (rcases hmem with h | h
               · exact hd _ _ _ _ _ _ h
               · exact absurd h (hu _ _ _ _ _))
            | (rcases hmem with h | h | h
               · exact hd _ _ _ _ _ _ h
               · exact absurd h (hu _ _ _ _ _)
               · exact h.2.1)

/-- Claim C10: changing nothing but the password of the configuration leaves
the argument vector of every subprocess of the run, dumps and cleanup alike,
unchanged; and every subprocess of a run inherits an environment in which
`PGPASSWORD` is the configured password. -/
theorem password_only_in_environment (w : World) (pw : Str) :
    execArgvs (main (w.withPassword pw)).trace = execArgvs (main w).trace ∧
    ∀ (con : Config) (argv : List Str) (p : Option Str) (ok : Bool),
      w.config = ConfigLoad.loaded con → Event.exec argv p ok ∈ (main w).trace →
      p = some con.PgPassword := by
  constructor
  · cases hc : w.config with
    | readError => simp [World.withPassword, hc]
    | parseError => simp [World.withPassword, hc]
    | loaded con =>
      apply execArgvs_main_congr w (w.withPassword pw) con { con with PgPassword := pw } hc
        <;> simp [World.withPassword, hc]
  · intro con argv p ok hc hmem
    exact exec_env_main w con argv p ok hc hmem

/-- Witness for claim C10 at the sample run and the password `hunter2`. -/
theorem password_only_in_environment_witness :
    sampleWorld.config = ConfigLoad.loaded sampleConfig ∧
    Event.exec (cleanupArgv "/var/backups/2024-01-01_00-00-00".toList)
      (some "s3cret".toList) true ∈ (main sampleWorld).trace ∧
    some "s3cret".toList = some sampleConfig.PgPassword :=
  ⟨rfl, by decide,
   (password_only_in_environment sampleWorld "hunter2".toList).2 sampleConfig
     (cleanupArgv "/var/backups/2024-01-01_00-00-00".toList) (some "s3cret".toList) true
     rfl (by decide)⟩

/-! ## The run timestamp -/

theorem digit_lt (a b : Nat) (h : a % 10 < b % 10) : digit a < digit b := by
  unfold digit
  have ha : a % 10 < 10 := Nat.mod_lt _ (by decide)
  have hb : b % 10 < 10 := Nat.mod_lt _ (by decide)
  generalize a % 10 = u at *
  generalize b % 10 = v at *
  interval_cases u <;> interval_cases v <;> first | omega | decide

theorem digit_congr (a b : Nat) (h : a % 10 = b % 10) : digit a = digit b := by
  unfold digit; rw [h]

/-- Two zero-padded two-digit fields followed by `s` and `t` compare as the
pairs (field, rest) do. -/
theorem lex_two_digits (x y : Nat) (hx : x < 100) (hy : y < 100) (s t : Str)
    (h : x < y ∨ (x = y ∧ List.Lex (fun a b => a < b) s t)) :
    List.Lex (fun a b => a < b) (digit (x / 10) :: digit x :: s)
      (digit (y / 10) :: digit y :: t) := by
  rcases h with h | ⟨rfl, h⟩
  · by_cases h1 : x / 10 < y / 10
    · exact List.Lex.rel (digit_lt _ _ (by omega))
    · rw [digit_congr (x / 10) (y / 10) (by omega)]
      exact List.Lex.cons (List.Lex.rel (digit_lt _ _ (by omega)))
  · exact List.Lex.cons (List.Lex.cons h)

/-- Two zero-padded four-digit fields followed by `s` and `t` compare as the
pairs (field, rest) do. -/
theorem lex_four_digits (x y : Nat) (hx : x < 10000) (hy : y < 10000) (s t : Str)
    (h : x < y ∨ (x = y ∧ List.Lex (fun a b => a < b) s t)) :
    List.Lex (fun a b => a < b)
      (digit (x / 1000) :: digit (x / 100) :: digit (x / 10) :: digit x :: s)
      (digit (y / 1000) :: digit (y / 100) :: digit (y / 10) :: digit y :: t) := by
  rcases h with h | ⟨rfl, h⟩
  · by_cases h1 : x / 1000 < y / 1000
    · exact List.Lex.rel (digit_lt _ _ (by omega))
    · rw [digit_congr (x / 1000) (y / 1000) (by omega)]
      refine List.Lex.cons ?_
      by_cases h2 : x / 100 < y / 100
      · exact List.Lex.rel (digit_lt _ _ (by omega))
      · rw [digit_congr (x / 100) (y / 100) (by omega)]
        refine List.Lex.cons ?_
        by_cases h3 : x / 10 < y / 10
        · exact List.Lex.rel (digit_lt _ _ (by omega))
        · rw [digit_congr (x / 10) (y / 10) (by omega)]
          exact List.Lex.cons (List.Lex.rel (digit_lt _ _ (by omega)))
  · exact List.Lex.cons (List.Lex.cons (List.Lex.cons (List.Lex.cons h)))

/-- The timestamp of a well-formed civil time, character by character. -/
theorem timestamp_wellFormed (t : CivilTime) (h : t.wellFormed) :
    timestamp t =
      digit (t.year / 1000) :: digit (t.year / 100) :: digit (t.year / 10) :: digit t.year ::
      '-' :: digit (t.month / 10) :: digit t.month ::
      '-' :: digit (t.day / 10) :: digit t.day ::
      '_' :: digit (t.hour / 10) :: digit t.hour ::
      '-' :: digit (t.minute / 10) :: digit t.minute ::
      '-' :: digit (t.second / 10) :: [digit t.second] := by
  obtain ⟨h1, h2, h3, h4, h5, h6, h7, h8⟩ := h
  have e4 : appendInt t.year 4
      = [digit (t.year / 1000), digit (t.year / 100), digit (t.year / 10), digit t.year] := by
    simp [appendInt, show t.year < 10000 by omega]
  have e2 : ∀ x, x < 100 → appendInt x 2 = [digit (x / 10), digit x] := by
    intro x hx; simp [appendInt, hx]
  simp [timestamp, e4, e2 t.month (by omega), e2 t.day (by omega), e2 t.hour (by omega),
    e2 t.minute (by omega), e2 t.second (by omega)]

/-- Claim C6: the encoding `2006-01-02_15-04-05` has the fixed width 19 and is
strictly monotone: of two civil date-times with years of at most four digits,
the one that is earlier by a second or more has the lexicographically smaller
timestamp. -/
theorem timestamp_strictly_monotone (a b : CivilTime) (ha : a.wellFormed)
    (hb : b.wellFormed) (h : a.earlier b) :
    (timestamp a).length = 19 ∧ (timestamp b).length = 19 ∧
    lexLt (timestamp a) (timestamp b) := by
  refine ⟨by rw [timestamp_wellFormed a ha]; rfl, by rw [timestamp_wellFormed b hb]; rfl, ?_⟩
  unfold lexLt
  rw [timestamp_wellFormed a ha, timestamp_wellFormed b hb]
  obtain ⟨a1, a2, a3, a4, a5, a6, a7, a8⟩ := ha
  obtain ⟨b1, b2, b3, b4, b5, b6, b7, b8⟩ := hb
  unfold CivilTime.earlier at h
  apply lex_four_digits _ _ (by omega) (by omega)
  rcases h with h | ⟨e, h⟩
  · exact Or.inl h
  refine Or.inr ⟨e, List.Lex.cons ?_⟩
  apply lex_two_digits _ _ (by omega) (by omega)
  rcases h with h | ⟨e, h⟩
  · exact Or.inl h
  refine Or.inr ⟨e, List.Lex.cons ?_⟩
  apply lex_two_digits _ _ (by omega) (by omega)
  rcases h with h | ⟨e, h⟩
  · exact Or.inl h
  refine Or.inr ⟨e, List.Lex.cons ?_⟩
  apply lex_two_digits _ _ (by omega) (by omega)
  rcases h with h | ⟨e, h⟩
  · exact Or.inl h
  refine Or.inr ⟨e, List.Lex.cons ?_⟩
  apply lex_two_digits _ _ (by omega) (by omega)
  rcases h with h | ⟨e, h⟩
  · exact Or.inl h
  refine Or.inr ⟨e, List.Lex.cons ?_⟩
  exact lex_two_digits _ _ (by omega) (by omega) [] [] (Or.inl h)

/-- Witness for claim C6: the last second of 2023 and the first of 2024. -/
theorem timestamp_strictly_monotone_witness :
    CivilTime.wellFormed ⟨2023, 12, 31, 23, 59, 59⟩ ∧
    CivilTime.wellFormed ⟨2024, 1, 1, 0, 0, 0⟩ ∧
    CivilTime.earlier ⟨2023, 12, 31, 23, 59, 59⟩ ⟨2024, 1, 1, 0, 0, 0⟩ ∧
    (timestamp ⟨2023, 12, 31, 23, 59, 59⟩).length = 19 ∧
    (timestamp ⟨2024, 1, 1, 0, 0, 0⟩).length = 19 ∧
    lexLt (timestamp ⟨2023, 12, 31, 23, 59, 59⟩) (timestamp ⟨2024, 1, 1, 0, 0, 0⟩) :=
  ⟨by decide, by decide, by decide,
   timestamp_strictly_monotone ⟨2023, 12, 31, 23, 59, 59⟩ ⟨2024, 1, 1, 0, 0, 0⟩
     (by decide) (by decide) (by decide)⟩

/-! ## Paths -/

theorem splitSlash_ne_nil (p : Str) : splitSlash p ≠ [] := by
  cases p with
  | nil => simp [splitSlash]
  | cons c cs =>
    simp only [splitSlash]
    split
    · simp
    · split <;> simp

theorem splitSlash_of_not_mem : ∀ (e : Str), '/' ∉ e → splitSlash e = [e]
  | [], _ => rfl
  | c :: cs, h => by
    have hc : c ≠ '/' := fun hc => h (by simp [hc])
    have hcs : '/' ∉ cs := fun hm => h (List.mem_cons_of_mem _ hm)
    simp [splitSlash, hc, splitSlash_of_not_mem cs hcs]

theorem splitSlash_append : ∀ (a b : Str),
    splitSlash (a ++ '/' :: b) = splitSlash a ++ splitSlash b
  | [], b => by simp [splitSlash]
  | c :: cs, b => by
    have ih := splitSlash_append cs b
    by_cases hc : c = '/'
    · simp [splitSlash, hc, ih]
    · simp only [List.cons_append, splitSlash, hc, if_false]
      have ih2 : splitSlash (cs.append ('/' :: b)) = splitSlash cs ++ splitSlash b := ih
      rw [ih2]
      cases h : splitSlash cs with
      | nil => exact absurd h (splitSlash_ne_nil cs)
      | cons e es => simp

theorem not_mem_of_mem_splitSlash : ∀ (p e : Str), e ∈ splitSlash p → '/' ∉ e
  | [], e, h => by
    simp [splitSlash] at h
    simp [h]
  | c :: cs, e, h => by
    have ih := not_mem_of_mem_splitSlash cs
    by_cases hc : c = '/'
    · simp only [splitSlash, hc, if_true, List.mem_cons] at h
      rcases h with h | h
      · simp [h]
      · exact ih e h
    · simp only [splitSlash, hc, if_false] at h
      cases hs : splitSlash cs with
      | nil => exact absurd hs (splitSlash_ne_nil cs)
      | cons e0 es =>
        rw [hs] at h ih
        simp only [List.mem_cons] at h
        rcases h with h | h
        · subst h
          have h0 := ih e0 (by simp)
          intro hm
          rcases List.mem_cons.mp hm with h1 | h1
          · exact hc h1.symm
          · exact h0 h1
        · exact ih e (by simp [h])

theorem joinSlash_cons_cons (e f : Str) (es : List Str) :
    joinSlash (e :: f :: es) = e ++ '/' :: joinSlash (f :: es) := rfl

theorem joinSlash_append_singleton : ∀ (es : List Str) (e : Str), es ≠ [] →
    joinSlash (es ++ [e]) = joinSlash es ++ '/' :: e
  | [], _, h => absurd rfl h
  | [a], e, _ => by simp [joinSlash]
  | a :: b :: es, e, _ => by
    have ih := joinSlash_append_singleton (b :: es) e (by simp)
    simp only [List.cons_append] at ih ⊢
    rw [joinSlash_cons_cons, ih, joinSlash_cons_cons]
    simp

theorem splitSlash_joinSlash : ∀ (es : List Str), es ≠ [] → (∀ e ∈ es, '/' ∉ e) →
    splitSlash (joinSlash es) = es
  | [], h, _ => absurd rfl h
  | [a], _, h => by simpa [joinSlash] using splitSlash_of_not_mem a (h a (by simp))
  | a :: b :: es, _, h => by
    have ih := splitSlash_joinSlash (b :: es) (by simp)
      (fun e he => h e (List.mem_cons_of_mem _ he))
    rw [joinSlash_cons_cons, splitSlash_append, ih, splitSlash_of_not_mem a (h a (by simp))]
    rfl

theorem cleanStep_name (r : Bool) (out : List Str) (e : Str) (he : isName e) :
    cleanStep r out e = e :: out := by
  obtain ⟨h1, _, h3, h4⟩ := he
  simp [cleanStep, h1, h3, h4]

theorem cleanElems_append_name (r : Bool) (es : List Str) (e : Str) (he : isName e) :
    cleanElems r (es ++ [e]) = e :: cleanElems r es := by
  simp [cleanElems, List.foldl_append, cleanStep_name r _ e he]

/-- The scanning step of `filepath.Clean` keeps the buffer canonical. -/
theorem Canon_cleanStep (r : Bool) (out : List Str) (e : Str) (h : Canon r out)
    (he : '/' ∉ e) : Canon r (cleanStep r out e) := by
  obtain ⟨h1, h2, h3⟩ := h
  unfold cleanStep
  split
  · exact ⟨h1, h2, h3⟩
  · rename_i hskip
    have hne : e ≠ [] := fun h => hskip (Or.inl h)
    have hnd : e ≠ ['.'] := fun h => hskip (Or.inr h)
    split
    · rename_i hdd
      cases out with
      | nil =>
        cases r
        · refine ⟨?_, by simp, by simp⟩
          intro x hx
          simp at hx
          subst hx
          exact ⟨hne, he, hnd⟩
        · exact ⟨by simp, by simp, by simp⟩
      | cons top rest =>
        simp only []
        split
        · rename_i htop
          cases r
          · refine ⟨?_, by simp, ?_⟩
            · intro x hx
              rcases List.mem_cons.mp hx with hx | hx
              · subst hx; exact ⟨hne, he, hnd⟩
              · exact h1 x hx
            · exact List.Chain'.cons (fun _ => htop) h3
          · exact ⟨h1, h2, h3⟩
        · refine ⟨fun x hx => h1 x (List.mem_cons_of_mem _ hx), ?_, h3.tail⟩
          intro hr hm
          exact h2 hr (List.mem_cons_of_mem _ hm)
    · rename_i hdd
      refine ⟨?_, ?_, ?_⟩
      · intro x hx
        rcases List.mem_cons.mp hx with hx | hx
        · subst hx; exact ⟨hne, he, hnd⟩
        · exact h1 x hx
      · intro hr hm
        rcases List.mem_cons.mp hm with hx | hx
        · exact hdd hx.symm
        · exact h2 hr hx
      · exact List.chain'_cons'.mpr ⟨fun _ _ h => absurd h hdd, h3⟩

theorem Canon_foldl (r : Bool) : ∀ (es : List Str) (out : List Str), Canon r out →
    (∀ e ∈ es, '/' ∉ e) → Canon r (es.foldl (cleanStep r) out)
  | [], out, h, _ => h
  | e :: es, out, h, hs => by
    simp only [List.foldl_cons]
    exact Canon_foldl r es _ (Canon_cleanStep r out e h (hs e (by simp)))
      (fun x hx => hs x (List.mem_cons_of_mem _ hx))

theorem Canon_nil (r : Bool) : Canon r [] := ⟨by simp, by simp, by simp⟩

/-- The buffer of `filepath.Clean` is canonical. -/
theorem Canon_cleanElems (r : Bool) (p : Str) : Canon r (cleanElems r (splitSlash p)) :=
  Canon_foldl r _ _ (Canon_nil r) (fun e he => not_mem_of_mem_splitSlash p e he)

theorem Canon_cons_name (r : Bool) (out : List Str) (e : Str) (h : Canon r out)
    (he : isName e) : Canon r (e :: out) := by
  have := Canon_cleanStep r out e h he.2.1
  rwa [cleanStep_name r out e he] at this

theorem Canon_tail (r : Bool) (e : Str) (out : List Str) (h : Canon r (e :: out)) :
    Canon r out :=
  ⟨fun x hx => h.1 x (List.mem_cons_of_mem _ hx),
   fun hr hm => h.2.1 hr (List.mem_cons_of_mem _ hm), h.2.2.tail⟩

/-- Scanning the elements of a canonical buffer writes the same buffer. -/
theorem cleanElems_reverse (r : Bool) : ∀ (out : List Str), Canon r out →
    cleanElems r out.reverse = out
  | [], _ => rfl
  | top :: rest, h => by
    have ih := cleanElems_reverse r rest (Canon_tail r top rest h)
    unfold cleanElems at ih ⊢
    rw [List.reverse_cons, List.foldl_append, ih]
    obtain ⟨h1, h2, h3⟩ := h
    obtain ⟨hne, _, hnd⟩ := h1 top (by simp)
    by_cases hdd : top = ['.', '.']
    · have hr : r = false := by
        cases r
        · rfl
        · exact absurd (by simp [hdd]) (h2 rfl)
      subst hr
      cases rest with
      | nil => simp [cleanStep, hdd]
      | cons b rest =>
        have hb : b = ['.', '.'] := (List.chain'_cons.mp h3).1 hdd
        simp [cleanStep, hdd, hb]
    · simp [cleanStep, hne, hnd, hdd]

theorem render_cons (r : Bool) (f : Str) (out : List Str) :
    render r (f :: out) = lead r out ++ f := by
  cases out with
  | nil => cases r <;> simp [render, lead, joinSlash]
  | cons a rest =>
    have hne : (a :: rest).reverse ≠ [] := by simp
    have hj := joinSlash_append_singleton (a :: rest).reverse f hne
    have hj2 : joinSlash (rest.reverse ++ [a, f])
        = joinSlash (rest.reverse ++ [a]) ++ '/' :: f := by
      simpa using hj
    cases r <;> simp [render, lead, hj2]

theorem head_joinSlash (a : Str) (es : List Str) (ha : a ≠ []) :
    (joinSlash (a :: es)).head? = a.head? := by
  cases a with
  | nil => exact absurd rfl ha
  | cons c cs => cases es <;> simp [joinSlash]

theorem render_ne_nil (r : Bool) (out : List Str) (h : Canon r out) (hne : out ≠ []) :
    render r out ≠ [] := by
  cases r
  · obtain ⟨a, rest, hrev⟩ := List.exists_cons_of_ne_nil
      (show out.reverse ≠ [] by simpa using hne)
    have ha := (h.1 a (by
      have : a ∈ out.reverse := by rw [hrev]; simp
      simpa using this)).1
    have hh := head_joinSlash a rest ha
    simp only [render, hne, hrev, if_false, Bool.false_eq_true]
    intro hnil
    rw [hnil] at hh
    cases a with
    | nil => exact ha rfl
    | cons c cs => simp at hh
  · simp [render]

theorem head_render (r : Bool) (out : List Str) (h : Canon r out) (hne : out ≠ []) :
    decide ((render r out).head? = some '/') = r := by
  cases r
  · obtain ⟨a, rest, hrev⟩ := List.exists_cons_of_ne_nil
      (show out.reverse ≠ [] by simpa using hne)
    have hmem : a ∈ out := by
      have : a ∈ out.reverse := by rw [hrev]; simp
      simpa using this
    obtain ⟨ha, hs, _⟩ := h.1 a hmem
    have hh := head_joinSlash a rest ha
    simp only [render, hne, hrev, if_false, Bool.false_eq_true, hh, decide_eq_false_iff_not]
    cases a with
    | nil => exact absurd rfl ha
    | cons c cs =>
      simp only [List.head?_cons, Option.some.injEq]
      intro hc
      exact hs (by simp [hc])
  · simp [render]

/-- On a path it has itself produced, `filepath.Clean` is the identity. -/
theorem clean_render (r : Bool) (out : List Str) (h : Canon r out) (hne : out ≠ []) :
    clean (render r out) = render r out := by
  have h0 := render_ne_nil r out h hne
  have hr := head_render r out h hne
  have hsl : ∀ e ∈ out.reverse, '/' ∉ e := fun e he => (h.1 e (by simpa using he)).2.1
  have hsplit := splitSlash_joinSlash out.reverse (by simpa using hne) hsl
  simp only [clean, h0, if_false, hr]
  congr 1
  cases r
  · simp only [render, hne, if_false, Bool.false_eq_true, hsplit]
    exact cleanElems_reverse false out h
  · simp only [render, if_true, splitSlash, hsplit]
    have := cleanElems_reverse true out h
    simpa [cleanElems, cleanStep] using this

/-- Cleaning a non-empty path extended by a proper element: what the buffer
holds for the path, then the element. -/
theorem clean_append_name (p n : Str) (hp : p ≠ []) (hn : isName n) :
    clean (p ++ '/' :: n)
      = lead (decide (p.head? = some '/'))
          (cleanElems (decide (p.head? = some '/')) (splitSlash p)) ++ n := by
  have h0 : p ++ '/' :: n ≠ [] := by simp
  have hh : (p ++ '/' :: n).head? = p.head? := by
    cases p with
    | nil => exact absurd rfl hp
    | cons c cs => simp
  simp only [clean, h0, if_false, hh, splitSlash_append, splitSlash_of_not_mem n hn.2.1,
    cleanElems_append_name _ _ n hn, render_cons]

theorem clean_name (n : Str) (hn : isName n) : clean n = n := by
  have h := clean_render false [n] (Canon_cons_name false [] n (Canon_nil false) hn) (by simp)
  simpa [render, joinSlash] using h

theorem join_pair (p n : Str) (hp : p ≠ []) : join [p, n] = clean (p ++ '/' :: n) := by
  cases p with
  | nil => exact absurd rfl hp
  | cons c cs => simp [join, List.dropWhile, joinSlash]

theorem join_nil_pair (n : Str) (hn : n ≠ []) : join [[], n] = clean n := by
  cases n with
  | nil => exact absurd rfl hn
  | cons c cs => simp [join, List.dropWhile, joinSlash]

/-- Joining a proper element to a clean path of at least one element appends
a separator and the element. -/
theorem join_render_name (r : Bool) (out : List Str) (f : Str) (h : Canon r out)
    (hne : out ≠ []) (hf : isName f) :
    join [render r out, f] = render r out ++ '/' :: f := by
  rw [join_pair _ _ (render_ne_nil r out h hne)]
  have e : render r out ++ '/' :: f = render r (f :: out) := by
    rw [render_cons]; simp [lead, hne]
  rw [e]
  exact clean_render r (f :: out) (Canon_cons_name r out f h hf) (by simp)

/-- The workspace directory is a clean path whose last element is the
timestamp. -/
theorem join_dir_name (b ts : Str) (hts : isName ts) :
    ∃ r out, Canon r (ts :: out) ∧ join [b, ts] = render r (ts :: out) := by
  by_cases hb : b = []
  · subst hb
    refine ⟨false, [], Canon_cons_name false [] ts (Canon_nil false) hts, ?_⟩
    rw [join_nil_pair ts hts.1, clean_name ts hts]
    simp [render, joinSlash]
  · refine ⟨decide (b.head? = some '/'),
      cleanElems (decide (b.head? = some '/')) (splitSlash b),
      Canon_cons_name _ _ ts (Canon_cleanElems _ b) hts, ?_⟩
    rw [join_pair b ts hb, clean_append_name b ts hb hts, render_cons]

theorem takeWhile_append_stop (p : Char → Bool) : ∀ (l r : Str) (x : Char),
    (∀ c ∈ l, p c = true) → p x = false → (l ++ x :: r).takeWhile p = l
  | [], r, x, _, hx => by simp [List.takeWhile_cons, hx]
  | c :: cs, r, x, h, hx => by
    have hc : p c = true := h c (by simp)
    have ih := takeWhile_append_stop p cs r x (fun d hd => h d (List.mem_cons_of_mem _ hd)) hx
    simp [List.takeWhile_cons, hc, ih]

theorem takeWhile_all (p : Char → Bool) : ∀ (l : Str), (∀ c ∈ l, p c = true) →
    l.takeWhile p = l
  | [], _ => rfl
  | c :: cs, h => by
    have hc : p c = true := h c (by simp)
    have ih := takeWhile_all p cs (fun d hd => h d (List.mem_cons_of_mem _ hd))
    simp [List.takeWhile_cons, hc, ih]

theorem stripTrailingSlashes_append (x f : Str) (hf : f ≠ []) (hs : '/' ∉ f) :
    stripTrailingSlashes (x ++ f) = x ++ f := by
  unfold stripTrailingSlashes
  obtain ⟨c, cs, hrev⟩ := List.exists_cons_of_ne_nil
    (show f.reverse ≠ [] by simpa using hf)
  have hc : c ≠ '/' := by
    intro hc
    apply hs
    have : c ∈ f.reverse := by rw [hrev]; simp
    simpa [hc] using this
  have e : (x ++ f).reverse = c :: (cs ++ x.reverse) := by
    rw [List.reverse_append, hrev]; rfl
  rw [e, List.dropWhile_cons]
  simp only [hc, decide_False, Bool.false_eq_true, if_false]
  rw [← e, List.reverse_reverse]

/-- The base name of a path that ends in a separator-free element after
nothing or after a separator is that element. -/
theorem base_append_name (x f : Str) (hf : f ≠ []) (hs : '/' ∉ f)
    (hx : x = [] ∨ ∃ y, x = y ++ ['/']) : base (x ++ f) = f := by
  have h0 : x ++ f ≠ [] := by simp [hf]
  have hp : ∀ c ∈ f.reverse, decide (c ≠ '/') = true := by
    intro c hc
    have hc2 : c ∈ f := by simpa using hc
    simp only [decide_eq_true_eq]
    intro h
    exact hs (h ▸ hc2)
  have hfr : f.reverse.reverse ≠ [] := by simpa using hf
  simp only [base, h0, if_false, stripTrailingSlashes_append x f hf hs, List.reverse_append]
  rcases hx with rfl | ⟨y, rfl⟩
  · rw [List.reverse_nil, List.append_nil, takeWhile_all _ f.reverse hp]
    simp [hf]
  · have : f.reverse ++ (y ++ ['/']).reverse = f.reverse ++ '/' :: y.reverse := by simp
    rw [this, takeWhile_append_stop _ f.reverse y.reverse '/' hp (by simp)]
    simp [hf]

theorem lead_shape (r : Bool) (out : List Str) :
    lead r out = [] ∨ ∃ y, lead r out = y ++ ['/'] := by
  unfold lead
  split
  · cases r
    · exact Or.inl rfl
    · exact Or.inr ⟨[], rfl⟩
  · exact Or.inr ⟨_, rfl⟩

/-- The artifact file name of a database whose name has no separator is a
proper path element. -/
theorem isName_artifact (d : Str) (hd : '/' ∉ d) : isName (d ++ "_backup.sql".toList) := by
  refine ⟨by simp, ?_, ?_, ?_⟩
  · intro hm
    rcases List.mem_append.mp hm with h | h
    · exact hd h
    · revert h; decide
  · intro h
    have := congrArg List.length h
    simp at this
  · intro h
    have := congrArg List.length h
    simp at this

theorem isName_dbbackup : isName "dbbackup".toList := by
  refine ⟨by decide, by decide, by decide, by decide⟩

/-- The base name of the artifact of a database whose name has no separator
is the database name followed by `_backup.sql`, whatever the directory. -/
theorem base_backupFile (dir d : Str) (hd : '/' ∉ d) :
    base (backupFile dir d) = d ++ "_backup.sql".toList := by
  have hn := isName_artifact d hd
  unfold backupFile
  by_cases hdir : dir = []
  · subst hdir
    rw [join_nil_pair _ hn.1, clean_name _ hn]
    simpa using base_append_name [] _ hn.1 hn.2.1 (Or.inl rfl)
  · rw [join_pair _ _ hdir, clean_append_name _ _ hdir hn]
    exact base_append_name _ _ hn.1 hn.2.1 (lead_shape _ _)

/-- The key of a proper file name is what `filepath.Clean` holds for
`dbbackup/<timestamp>`, then the name. -/
theorem remoteKey_name (ts f : Str) (hf : isName f) :
    remoteKey ts f
      = lead false (cleanElems false (splitSlash ("dbbackup".toList ++ '/' :: ts))) ++ f := by
  have e : join ["dbbackup".toList, ts, f]
      = clean (("dbbackup".toList ++ '/' :: ts) ++ '/' :: f) := by
    simp [join, List.dropWhile, joinSlash]
  rw [remoteKey, toSlash, e, clean_append_name _ _ (by simp) hf]
  rfl

theorem digitChar_plain (d : Nat) (hd : d < 10) :
    Nat.digitChar d ≠ '/' ∧ Nat.digitChar d ≠ '.' := by
  interval_cases d <;> decide

theorem digit_plain (d : Nat) : digit d ≠ '/' ∧ digit d ≠ '.' :=
  digitChar_plain (d % 10) (Nat.mod_lt _ (by decide))

theorem toDigitsCore_plain : ∀ (fuel n : Nat) (acc : List Char),
    (∀ c ∈ acc, c ≠ '/' ∧ c ≠ '.') →
    ∀ c ∈ Nat.toDigitsCore 10 fuel n acc, c ≠ '/' ∧ c ≠ '.'
  | 0, _, acc, h => by simpa [Nat.toDigitsCore] using h
  | fuel + 1, n, acc, h => by
    have hacc : ∀ c ∈ Nat.digitChar (n % 10) :: acc, c ≠ '/' ∧ c ≠ '.' := by
      intro c hc
      rcases List.mem_cons.mp hc with hc | hc
      · subst hc; exact digitChar_plain _ (Nat.mod_lt _ (by decide))
      · exact h c hc
    simp only [Nat.toDigitsCore]
    split
    · exact hacc
    · exact toDigitsCore_plain fuel (n / 10) _ hacc

theorem appendInt_plain (x width : Nat) : ∀ c ∈ appendInt x width, c ≠ '/' ∧ c ≠ '.' := by
  intro c hc
  unfold appendInt at hc
  split at hc
  · simp only [List.mem_cons, List.mem_singleton, List.not_mem_nil, or_false] at hc
    rcases hc with rfl | rfl <;> exact digit_plain _
  · split at hc
    · simp only [List.mem_cons, List.mem_singleton, List.not_mem_nil, or_false] at hc
      rcases hc with rfl | rfl | rfl | rfl <;> exact digit_plain _
    · rcases List.mem_append.mp hc with h | h
      · rw [List.eq_of_mem_replicate h]; decide
      · exact toDigitsCore_plain _ _ [] (by simp) c h

/-- The run timestamp is a proper path element. -/
theorem isName_timestamp (t : CivilTime) : isName (timestamp t) := by
  have hplain : ∀ c ∈ timestamp t, c ≠ '/' ∧ c ≠ '.' := by
    intro c hc
    simp only [timestamp, List.mem_append, List.mem_cons] at hc
    casesm* _ ∨ _
    all_goals first
      | exact appendInt_plain _ _ c (by assumption)
      | (subst c; decide)
  have hdash : '-' ∈ timestamp t := by simp [timestamp]
  refine ⟨?_, fun h => (hplain _ h).1 rfl, ?_, ?_⟩
  · intro h; rw [h] at hdash; simp at hdash
  · intro h; rw [h] at hdash; revert hdash; decide
  · intro h; rw [h] at hdash; revert hdash; decide

/-! ## Keys and artifact paths -/

/-- Claim C5, as the code has it: for every workspace directory and timestamp,
two distinct database names that contain no path separator get distinct
object keys. -/
theorem remoteKey_injective_on_plain_names (dir ts d1 d2 : Str) (h1 : '/' ∉ d1)
    (h2 : '/' ∉ d2) (hne : d1 ≠ d2) :
    remoteKey ts (base (backupFile dir d1)) ≠ remoteKey ts (base (backupFile dir d2)) := by
  rw [base_backupFile dir d1 h1, base_backupFile dir d2 h2,
    remoteKey_name ts _ (isName_artifact d1 h1), remoteKey_name ts _ (isName_artifact d2 h2)]
  intro h
  exact hne (List.append_cancel_right (List.append_cancel_left h))

/-- Witness for claim C5 at the databases `app` and `analytics`. -/
theorem remoteKey_injective_on_plain_names_witness :
    remoteKey "2024-01-01_00-00-00".toList
        (base (backupFile "/var/backups/2024-01-01_00-00-00".toList "app".toList))
      ≠ remoteKey "2024-01-01_00-00-00".toList
        (base (backupFile "/var/backups/2024-01-01_00-00-00".toList "analytics".toList)) :=
  remoteKey_injective_on_plain_names "/var/backups/2024-01-01_00-00-00".toList
    "2024-01-01_00-00-00".toList "app".toList "analytics".toList (by decide) (by decide)
    (by decide)

/-- Claim C5 fails as stated: the distinct database names `app` and `./app`
have their artifact written to the same file and uploaded under the same key. -/
theorem remoteKey_collision :
    "app".toList ≠ "./app".toList ∧
    backupFile "/var/backups/2024-01-01_00-00-00".toList "app".toList
      = backupFile "/var/backups/2024-01-01_00-00-00".toList "./app".toList ∧
    remoteKey "2024-01-01_00-00-00".toList
        (base (backupFile "/var/backups/2024-01-01_00-00-00".toList "app".toList))
      = remoteKey "2024-01-01_00-00-00".toList
        (base (backupFile "/var/backups/2024-01-01_00-00-00".toList "./app".toList)) := by
  decide

/-- The artifact path of a database whose name has no separator is the
workspace directory, a separator and the file name. -/
theorem backupFile_plain (con : Config) (t : CivilTime) (name : Str) (h : '/' ∉ name) :
    backupFile (bkpdir con (timestamp t)) name
      = bkpdir con (timestamp t) ++ '/' :: (name ++ "_backup.sql".toList) := by
  obtain ⟨r, out, hc, hj⟩ := join_dir_name con.BackupDir (timestamp t) (isName_timestamp t)
  unfold backupFile bkpdir
  rw [hj]
  exact join_render_name r _ _ hc (by simp) (isName_artifact name h)

theorem isUnder_append (dir f : Str) (hf : f ≠ []) : isUnder dir (dir ++ '/' :: f) = true := by
  have h1 : (dir ++ ['/']) <+: (dir ++ '/' :: f) := ⟨f, by simp⟩
  have h2 : 0 < f.length := List.length_pos.mpr hf
  simp only [isUnder, h1, decide_True, Bool.true_and, decide_eq_true_eq, List.length_append,
    List.length_cons]
  omega

/-- Claim C9, as the code has it: the shell command is always
`psql -U <user> -h <host> <name> > <artifact path>`, and for a database name
without path separator the artifact path is the workspace directory, a
separator and `<name>_backup.sql`, which lies inside the workspace. -/
theorem dump_command_and_artifact_path (con : Config) (t : CivilTime) (name : Str) :
    bkpcmd con name (backupFile (bkpdir con (timestamp t)) name)
      = "psql -U ".toList ++ con.PgUser ++ " -h ".toList ++ con.PgHost ++ " ".toList ++ name
          ++ " > ".toList ++ backupFile (bkpdir con (timestamp t)) name ∧
    ('/' ∉ name →
      backupFile (bkpdir con (timestamp t)) name
        = bkpdir con (timestamp t) ++ "/".toList ++ name ++ "_backup.sql".toList ∧
      isUnder (bkpdir con (timestamp t)) (backupFile (bkpdir con (timestamp t)) name)
        = true) := by
  refine ⟨rfl, fun h => ?_⟩
  have e := backupFile_plain con t name h
  refine ⟨by rw [e]; simp, ?_⟩
  rw [e]
  exact isUnder_append _ _ (by simp)

/-- Witness for claim C9 at the database `app` of the sample run. -/
theorem dump_command_and_artifact_path_witness :
    '/' ∉ "app".toList ∧
    backupFile (bkpdir sampleConfig (timestamp sampleWorld.now)) "app".toList
      = bkpdir sampleConfig (timestamp sampleWorld.now) ++ "/".toList ++ "app".toList
          ++ "_backup.sql".toList ∧
    isUnder (bkpdir sampleConfig (timestamp sampleWorld.now))
      (backupFile (bkpdir sampleConfig (timestamp sampleWorld.now)) "app".toList) = true :=
  ⟨by decide,
   (dump_command_and_artifact_path sampleConfig sampleWorld.now "app".toList).2 (by decide)⟩

/-- Claim C9 fails as stated: for the database name `../app` the artifact path
is `/var/backups/app_backup.sql`, which is not `<workspace>/../app_backup.sql`
and does not lie inside the workspace directory. -/
theorem artifact_escapes_workspace :
    bkpdir sampleConfig (timestamp sampleWorld.now)
      = "/var/backups/2024-01-01_00-00-00".toList ∧
    backupFile (bkpdir sampleConfig (timestamp sampleWorld.now)) "../app".toList
      = "/var/backups/app_backup.sql".toList ∧
    backupFile (bkpdir sampleConfig (timestamp sampleWorld.now)) "../app".toList
      ≠ bkpdir sampleConfig (timestamp sampleWorld.now) ++ "/".toList ++ "../app".toList
          ++ "_backup.sql".toList ∧
    isUnder (bkpdir sampleConfig (timestamp sampleWorld.now))
      (backupFile (bkpdir sampleConfig (timestamp sampleWorld.now)) "../app".toList)
      = false := by
  decide

/-! ## The full run -/

theorem writeFile_dirs (fs : FS) (p : Str) : (fs.writeFile p).dirs = fs.dirs := by
  unfold FS.writeFile; split <;> rfl

theorem writeFile_files_of_not_mem (fs : FS) (p : Str) (h : p ∉ fs.files) :
    (fs.writeFile p).files = fs.files ++ [p] := by
  simp [FS.writeFile, h]

/-- The files after a sequence of dumps to pairwise distinct new paths. -/
theorem foldl_writeFile_files (bf : Str → Str) : ∀ (names : List Str) (fs : FS),
    (names.map bf).Nodup → (∀ n ∈ names, bf n ∉ fs.files) →
    (names.foldl (fun s n => s.writeFile (bf n)) fs).files = fs.files ++ names.map bf
  | [], fs, _, _ => by simp
  | n :: rest, fs, hnd, hnew => by
    have hn : bf n ∉ fs.files := hnew n (by simp)
    have hnd2 : (rest.map bf).Nodup := (List.nodup_cons.mp hnd).2
    have hnot : bf n ∉ rest.map bf := (List.nodup_cons.mp hnd).1
    have hnew2 : ∀ m ∈ rest, bf m ∉ (fs.writeFile (bf n)).files := by
      intro m hm
      rw [writeFile_files_of_not_mem fs _ hn]
      intro hmem
      rcases List.mem_append.mp hmem with h | h
      · exact hnew m (List.mem_cons_of_mem _ hm) h
      · have : bf m = bf n := by simpa using h
        exact hnot (this ▸ List.mem_map_of_mem bf hm)
    rw [List.foldl_cons, foldl_writeFile_files bf rest _ hnd2 hnew2,
      writeFile_files_of_not_mem fs _ hn]
    simp

theorem mkdirAll_files (fs : FS) (p : Str) : (fs.mkdirAll p).files = fs.files := by
  unfold FS.mkdirAll; split <;> rfl

theorem fsAtDumps_files (w : World) (con : Config) : (fsAtDumps w con).files = w.fs.files := by
  unfold fsAtDumps; split
  · exact mkdirAll_files _ _
  · rfl

/-- An upload walk in which nothing fails uploads every file, in order. -/
theorem uploadLoop_ok (w : World) (con : Config) (ts : Str) (hwalk : w.walkErrAt = none) :
    ∀ (files : List Str) (i : Nat),
      (∀ j, j < files.length → w.openOk (i + j) = true) →
      (∀ j, j < files.length → w.putOk (i + j) = true) →
      (uploadLoop w con ts files i).2 = true ∧
      putCalls (uploadLoop w con ts files i).1
        = files.map (fun p => (con.S3BucketName, remoteKey ts (base p), p, true)) := by
  intro files
  induction files with
  | nil => intro i _ _; simp [uploadLoop, hwalk, putCalls]
  | cons f rest ih =>
    intro i hopen hput
    have ho0 : w.openOk i = true := by simpa using hopen 0 (by simp)
    have hp0 : w.putOk i = true := by simpa using hput 0 (by simp)
    have e1 : ∀ j, i + (j + 1) = i + 1 + j := by intro j; omega
    obtain ⟨h1, h2⟩ := ih (i + 1)
      (by intro j hj; rw [← e1]; exact hopen (j + 1) (by simpa using hj))
      (by intro j hj; rw [← e1]; exact hput (j + 1) (by simpa using hj))
    simp [uploadLoop, hwalk, ho0, hp0, putCalls, h1, h2]

/-- The key of the artifact of a database whose name has no separator. -/
theorem remoteKey_artifact (t : CivilTime) (n : Str) (hn : '/' ∉ n) :
    remoteKey (timestamp t) (n ++ "_backup.sql".toList)
      = "dbbackup/".toList ++ timestamp t ++ "/".toList ++ n ++ "_backup.sql".toList := by
  have hts := isName_timestamp t
  rw [remoteKey_name _ _ (isName_artifact n hn), splitSlash_append,
    splitSlash_of_not_mem _ isName_dbbackup.2.1, splitSlash_of_not_mem _ hts.2.1]
  have e : cleanElems false (["dbbackup".toList] ++ [timestamp t])
      = [timestamp t, "dbbackup".toList] := by
    have := cleanElems_append_name false ["dbbackup".toList] (timestamp t) hts
    rw [this]
    have h2 := cleanElems_append_name false [] "dbbackup".toList isName_dbbackup
    simpa [cleanElems] using h2
  rw [e]
  simp [lead, render, joinSlash]

theorem backupFile_injective (con : Config) (t : CivilTime) (names : List Str)
    (hplain : ∀ n ∈ names, '/' ∉ n) (hnd : names.Nodup) :
    (names.map (backupFile (bkpdir con (timestamp t)))).Nodup := by
  rw [List.nodup_map_iff_inj_on hnd]
  intro a ha b hb hab
  rw [backupFile_plain con t a (hplain a ha), backupFile_plain con t b (hplain b hb)] at hab
  have h1 := List.append_cancel_left hab
  simp only [List.cons.injEq, true_and] at h1
  exact List.append_cancel_right h1

/-! ## The shell on plain command lines -/

theorem shPlain_ne (c : Char) (h : shPlain c = true) : c ≠ ' ' ∧ c ≠ '>' := by
  constructor <;> (rintro rfl; revert h; decide)

theorem Plain.no_blank {s : Str} (h : Plain s) : ' ' ∉ s :=
  fun hm => (shPlain_ne _ (h _ hm)).1 rfl

theorem Plain.no_redirect {s : Str} (h : Plain s) : '>' ∉ s :=
  fun hm => (shPlain_ne _ (h _ hm)).2 rfl

theorem Plain.append {a b : Str} (ha : Plain a) (hb : Plain b) : Plain (a ++ b) := by
  intro c hc
  rcases List.mem_append.mp hc with h | h
  · exact ha c h
  · exact hb c h

theorem splitBlank_ne_nil (p : Str) : splitBlank p ≠ [] := by
  cases p with
  | nil => simp [splitBlank]
  | cons c cs =>
    simp only [splitBlank]
    split
    · simp
    · split <;> simp

theorem splitBlank_of_not_mem : ∀ (e : Str), ' ' ∉ e → splitBlank e = [e]
  | [], _ => rfl
  | c :: cs, h => by
    have hc : c ≠ ' ' := fun hc => h (by simp [hc])
    have hcs : ' ' ∉ cs := fun hm => h (List.mem_cons_of_mem _ hm)
    simp [splitBlank, hc, splitBlank_of_not_mem cs hcs]

theorem splitBlank_append : ∀ (a b : Str),
    splitBlank (a ++ ' ' :: b) = splitBlank a ++ splitBlank b
  | [], b => by simp [splitBlank]
  | c :: cs, b => by
    have ih : splitBlank (cs.append (' ' :: b)) = splitBlank cs ++ splitBlank b :=
      splitBlank_append cs b
    by_cases hc : c = ' '
    · simp [splitBlank, hc, splitBlank_append cs b]
    · simp only [List.cons_append, splitBlank, hc, if_false]
      rw [ih]
      cases h : splitBlank cs with
      | nil => exact absurd h (splitBlank_ne_nil cs)
      | cons e es => simp

theorem shTokens_append (a b : Str) : shTokens (a ++ ' ' :: b) = shTokens a ++ shTokens b := by
  simp [shTokens, splitBlank_append]

theorem shTokens_word (s : Str) (h : ' ' ∉ s) : shTokens s = wordOf s := by
  unfold shTokens wordOf
  rw [splitBlank_of_not_mem s h]
  cases s <;> simp

theorem mem_wordOf {s t : Str} (h : t ∈ wordOf s) : t = s := by
  unfold wordOf at h
  split at h
  · simp at h
  · simpa using h

theorem shSimple_arg (t : Str) (rest : List Str) (h : t ≠ ['>']) :
    shSimple (t :: rest)
      = (shSimple rest).map (fun c => { c with argv := t :: c.argv }) := by
  cases rest <;> simp [shSimple, h]

theorem shSimple_args : ∀ (args rest : List Str), (∀ t ∈ args, t ≠ ['>']) →
    shSimple (args ++ rest)
      = (shSimple rest).map (fun c => { c with argv := args ++ c.argv })
  | [], rest, _ => by
    cases h : shSimple rest <;> simp [h]
  | t :: args, rest, h => by
    rw [List.cons_append, shSimple_arg t _ (h t (by simp)),
      shSimple_args args rest (fun x hx => h x (List.mem_cons_of_mem _ hx))]
    cases h2 : shSimple rest <;> simp

theorem shSimple_target (f : Str) (h : f ≠ ['>']) :
    shSimple [['>'], f] = some ⟨[], [f]⟩ := by
  simp [shSimple, h]

theorem ne_redirect_of_not_mem {t : Str} (h : '>' ∉ t) : t ≠ ['>'] := by
  rintro rfl
  exact h (by simp)

theorem all_of_Plain {s : Str} (h : Plain s) :
    s.all (fun c => shPlain c || decide (c = ' ') || decide (c = '>')) = true := by
  rw [List.all_eq_true]
  intro c hc
  simp [h c hc]

/-- What the shell reads in the dump command line when user, host, database
name and artifact path are plain: `psql` with its options and the database
name as arguments, and one redirection, to the artifact path. -/
theorem shParse_bkpcmd (con : Config) (name file : Str) (hu : Plain con.PgUser)
    (hh : Plain con.PgHost) (hn : Plain name) (hf : Plain file) (hfne : file ≠ []) :
    shParse (bkpcmd con name file)
      = some ⟨["psql".toList, "-U".toList] ++ wordOf con.PgUser ++ ["-h".toList]
          ++ wordOf con.PgHost ++ wordOf name, [file]⟩ := by
  have hline : bkpcmd con name file
      = "psql".toList ++ ' ' :: ("-U".toList ++ ' ' :: (con.PgUser ++ ' ' ::
          ("-h".toList ++ ' ' :: (con.PgHost ++ ' ' :: (name ++ ' ' ::
            (['>'] ++ ' ' :: file)))))) := by
    simp [bkpcmd]
  have htok : shTokens (bkpcmd con name file)
      = (["psql".toList, "-U".toList] ++ wordOf con.PgUser ++ ["-h".toList]
          ++ wordOf con.PgHost ++ wordOf name) ++ [['>'], file] := by
    rw [hline]
    simp only [shTokens_append]
    rw [shTokens_word _ hu.no_blank, shTokens_word _ hh.no_blank, shTokens_word _ hn.no_blank,
      shTokens_word file hf.no_blank]
    have e1 : shTokens "psql".toList = ["psql".toList] := by decide
    have e2 : shTokens "-U".toList = ["-U".toList] := by decide
    have e3 : shTokens "-h".toList = ["-h".toList] := by decide
    have e4 : shTokens ['>'] = [['>']] := by decide
    have e5 : wordOf file = [file] := by simp [wordOf, hfne]
    rw [e1, e2, e3, e4, e5]
    simp
  have hargs : ∀ t ∈ ["psql".toList, "-U".toList] ++ wordOf con.PgUser ++ ["-h".toList]
      ++ wordOf con.PgHost ++ wordOf name, '>' ∉ t := by
    intro t ht
    simp only [List.mem_append, List.mem_cons, List.mem_singleton, List.not_mem_nil,
      or_false] at ht
    rcases ht with (((h | h) | h) | h) | h
    · rcases h with rfl | rfl <;> decide
    · rw [mem_wordOf h]; exact hu.no_redirect
    · rw [h]; decide
    · rw [mem_wordOf h]; exact hh.no_redirect
    · rw [mem_wordOf h]; exact hn.no_redirect
  have hall : (bkpcmd con name file).all
      (fun c => shPlain c || decide (c = ' ') || decide (c = '>')) = true := by
    rw [hline]
    simp only [List.all_append, List.all_cons, Bool.and_eq_true]
    refine ⟨by decide, by decide, by decide, by decide, all_of_Plain hu, by decide,
      by decide, by decide, all_of_Plain hh, by decide, all_of_Plain hn, by decide,
      by decide, by decide, all_of_Plain hf⟩
  have htoks : (shTokens (bkpcmd con name file)).all
      (fun t => decide (t = ['>']) || !t.contains '>') = true := by
    rw [htok, List.all_eq_true]
    intro t ht
    rcases List.mem_append.mp ht with h | h
    · have := hargs t h
      simp [this]
    · simp only [List.mem_cons, List.mem_singleton, List.not_mem_nil, or_false] at h
      rcases h with rfl | rfl
      · simp
      · have := hf.no_redirect
        simp [this]
  unfold shParse
  rw [if_pos ⟨hall, htoks⟩, htok,
    shSimple_args _ _ (fun t ht => ne_redirect_of_not_mem (hargs t ht)),
    shSimple_target file (ne_redirect_of_not_mem hf.no_redirect)]
  simp

theorem clientQuiet_wordOf (s : Str) (h : dashed s = false) :
    (wordOf s).all (fun a => !dashed a || decide (a = "-U".toList) || decide (a = "-h".toList))
      = true := by
  unfold wordOf
  split <;> simp [h]

/-- A successful dump whose command line is made of plain words has created
the artifact file and done nothing else. -/
theorem shEffect_bkpcmd (w : World) (i : Nat) (fs : FS) (con : Config) (name file : Str)
    (hu : shWord con.PgUser) (hh : shWord con.PgHost) (hn : shWord name) (hf : Plain file)
    (hfne : file ≠ []) :
    shEffect w i (bkpcmd con name file) fs = fs.writeFile (clean file) := by
  have hq : clientQuiet (["-U".toList] ++ wordOf con.PgUser ++ ["-h".toList]
      ++ wordOf con.PgHost ++ wordOf name) = true := by
    unfold clientQuiet
    simp only [List.all_append, Bool.and_eq_true]
    exact ⟨⟨⟨⟨by decide, clientQuiet_wordOf _ hu.2⟩, by decide⟩, clientQuiet_wordOf _ hh.2⟩,
      clientQuiet_wordOf _ hn.2⟩
  unfold shEffect
  rw [shParse_bkpcmd con name file hu.1 hh.1 hn.1 hf hfne]
  simp only [List.cons_append, List.nil_append, List.foldl_cons, List.foldl_nil]
  simp only [List.cons_append, List.nil_append] at hq
  rw [if_pos ⟨trivial, hq⟩]

/-- What the shell reads in the cleanup command line when the directory is a
plain word: `rm -R` and the directory. -/
theorem shParse_cleanupCmd (dir : Str) (hd : Plain dir) (hne : dir ≠ []) :
    shParse (cleanupCmd dir) = some ⟨["rm".toList, "-R".toList, dir], []⟩ := by
  have hline : cleanupCmd dir = "rm".toList ++ ' ' :: ("-R".toList ++ ' ' :: dir) := by
    simp [cleanupCmd]
  have htok : shTokens (cleanupCmd dir) = ["rm".toList, "-R".toList, dir] := by
    rw [hline]
    simp only [shTokens_append]
    rw [shTokens_word dir hd.no_blank]
    have e1 : shTokens "rm".toList = ["rm".toList] := by decide
    have e2 : shTokens "-R".toList = ["-R".toList] := by decide
    have e5 : wordOf dir = [dir] := by simp [wordOf, hne]
    rw [e1, e2, e5]
    rfl
  have hall : (cleanupCmd dir).all
      (fun c => shPlain c || decide (c = ' ') || decide (c = '>')) = true := by
    rw [hline]
    simp only [List.all_append, List.all_cons, Bool.and_eq_true]
    exact ⟨by decide, by decide, by decide, by decide, all_of_Plain hd⟩
  have hargs : ∀ t ∈ ["rm".toList, "-R".toList, dir], '>' ∉ t := by
    intro t ht
    simp only [List.mem_cons, List.mem_singleton, List.not_mem_nil, or_false] at ht
    rcases ht with rfl | rfl | rfl
    · decide
    · decide
    · exact hd.no_redirect
  have htoks : (shTokens (cleanupCmd dir)).all
      (fun t => decide (t = ['>']) || !t.contains '>') = true := by
    rw [htok, List.all_eq_true]
    intro t ht
    have := hargs t ht
    simp [this]
  unfold shParse
  rw [if_pos ⟨hall, htoks⟩, htok]
  have := shSimple_args ["rm".toList, "-R".toList, dir] []
    (fun t ht => ne_redirect_of_not_mem (hargs t ht))
  simpa [shSimple] using this

/-- A successful cleanup whose directory is a plain word has removed the
directory and everything inside it. -/
theorem shEffect_cleanupCmd (w : World) (i : Nat) (fs : FS) (dir : Str) (hd : shWord dir)
    (hne : dir ≠ []) : shEffect w i (cleanupCmd dir) fs = fs.removeAll (clean dir) := by
  unfold shEffect
  rw [shParse_cleanupCmd dir hd.1 hne]
  have h2 : removesOperands ["-R".toList, dir] = true := by
    simp [removesOperands, hd.2]
  simp only [List.foldl_nil]
  rw [if_neg (fun h => absurd h.1 (by decide)), if_pos ⟨trivial, h2⟩]
  simp

/-- A path `filepath.Clean` has produced is left as it is by `filepath.Clean`. -/
theorem clean_idem (p : Str) : clean (clean p) = clean p := by
  by_cases hp : p = []
  · subst hp; decide
  · have hc := Canon_cleanElems (decide (p.head? = some '/')) p
    simp only [clean, hp, if_false]
    by_cases ho : cleanElems (decide (p.head? = some '/')) (splitSlash p) = []
    · rw [ho]
      cases decide (p.head? = some '/') <;> decide
    · have := clean_render _ _ hc ho
      simpa [clean] using this

theorem clean_join_pair (a b : Str) (hb : b ≠ []) : clean (join [a, b]) = join [a, b] := by
  by_cases ha : a = []
  · subst ha
    rw [join_nil_pair b hb, clean_idem]
  · rw [join_pair a b ha, clean_idem]

theorem Plain_artifact_suffix : Plain "_backup.sql".toList := by
  intro c hc
  revert c
  decide

theorem workspace_ne_nil (w : World) (con : Config) : workspace w con ≠ [] := by
  obtain ⟨r, out, hc, hj⟩ := join_dir_name con.BackupDir (timestamp w.now)
    (isName_timestamp w.now)
  unfold workspace bkpdir
  rw [hj]
  exact render_ne_nil r _ hc (by simp)

theorem clean_workspace (w : World) (con : Config) :
    clean (workspace w con) = workspace w con :=
  clean_join_pair con.BackupDir (timestamp w.now) (isName_timestamp w.now).1

/-- On plain words every successful dump has created its artifact file and
done nothing else. -/
theorem shEffect_dump (w : World) (con : Config) (names : List Str)
    (hwords : plainWords w con names) :
    ∀ n ∈ names, ∀ (k : Nat) (s : FS),
      shEffect w k (bkpcmd con n (backupFile (workspace w con) n)) s
        = s.writeFile (backupFile (workspace w con) n) := by
  obtain ⟨hu, hh, hws, hns⟩ := hwords
  intro n hn k s
  obtain ⟨hword, hsl⟩ := hns n hn
  have e := backupFile_plain con w.now n hsl
  have hf : Plain (backupFile (workspace w con) n) := by
    rw [workspace, e]
    have h1 : Plain ('/' :: (n ++ "_backup.sql".toList)) := by
      intro c hc
      rcases List.mem_cons.mp hc with rfl | hc
      · decide
      · exact (hword.1.append Plain_artifact_suffix) c hc
    exact hws.1.append h1
  have hne : backupFile (workspace w con) n ≠ [] := by
    rw [workspace, e]; simp
  rw [shEffect_bkpcmd w k s con n _ hu hh hword hf hne]
  unfold backupFile
  rw [clean_join_pair _ _ (by simp)]

theorem walked_eq (w : World) (con : Config) (names : List Str)
    (hall : ∀ i, i < names.length → w.dumpOk i = true)
    (hwords : plainWords w con names) (hnd : names.Nodup) (hfresh : freshWorkspace w con) :
    walked w con names
      = (names.map (backupFile (workspace w con))).insertionSort walkOrder := by
  have hplain : ∀ n ∈ names, '/' ∉ n := fun n hn => (hwords.2.2.2 n hn).2
  have hunder : ∀ n ∈ names, isUnder (workspace w con) (backupFile (workspace w con) n) = true := by
    intro n hn
    rw [workspace, backupFile_plain con w.now n (hplain n hn)]
    exact isUnder_append _ _ (by simp)
  have d2 := dumpLoop_fs w con (workspace w con) names 0 (fsAtDumps w con)
    (by intro j hj; simpa using hall j hj) (shEffect_dump w con names hwords)
  have hnew : ∀ n ∈ names, backupFile (workspace w con) n ∉ (fsAtDumps w con).files := by
    intro n hn hmem
    rw [fsAtDumps_files] at hmem
    have := (hfresh _ hmem).2
    rw [hunder n hn] at this
    exact Bool.noConfusion this
  have hfiles := foldl_writeFile_files (backupFile (workspace w con)) names (fsAtDumps w con)
    (backupFile_injective con w.now names hplain hnd) hnew
  have hws : join [con.BackupDir, timestamp w.now] = workspace w con := rfl
  unfold walked walkFiles
  rw [d2, hfiles, fsAtDumps_files, hws, List.filter_append]
  have f1 : w.fs.files.filter
      (fun p => decide (p = workspace w con) || isUnder (workspace w con) p) = [] := by
    rw [List.filter_eq_nil_iff]
    intro p hp
    obtain ⟨h1, h2⟩ := hfresh p hp
    simp [h1, h2]
  have f2 : (names.map (backupFile (workspace w con))).filter
      (fun p => decide (p = workspace w con) || isUnder (workspace w con) p)
      = names.map (backupFile (workspace w con)) := by
    rw [List.filter_eq_self]
    intro p hp
    obtain ⟨n, hn, rfl⟩ := List.mem_map.mp hp
    simp [hunder n hn]
  rw [f1, f2, List.nil_append]

/-- Claim C3, as the code has it: when the database user, the host and the
workspace path are plain words (ASCII letters, digits and `_ - . / : @ + ,`,
not beginning with `-`), the `N` enumerated database names are pairwise
distinct plain words without path separator, the workspace is fresh and no
step fails, the run makes exactly `N` `PutObject` calls, their keys are, up to
order, the keys `dbbackup/<runTimestamp>/<name>_backup.sql` of the enumerated
names, each call goes to the configured bucket, and afterwards neither the
workspace directory nor any file inside it exists; the exit status is 0. -/
theorem full_run_uploads_every_artifact (w : World) (con : Config) (names : List Str)
    (hreach : reachesUploads w con names) (hup : uploadsSucceed w names.length)
    (hfresh : freshWorkspace w con) (hnd : names.Nodup)
    (hwords : plainWords w con names) :
    (putCalls (main w).trace).length = names.length ∧
    (putKeys (main w).trace).Perm (names.map (specKey (timestamp w.now))) ∧
    (∀ b ∈ putBuckets (main w).trace, b = con.S3BucketName) ∧
    workspace w con ∉ (main w).fs.dirs ∧
    (∀ p ∈ (main w).fs.files, p ≠ workspace w con ∧ isUnder (workspace w con) p = false) ∧
    (main w).exitCode = 0 := by
  have hplain : ∀ n ∈ names, '/' ∉ n := fun n hn => (hwords.2.2.2 n hn).2
  obtain ⟨hd, hall, hsess⟩ := hreach
  obtain ⟨hwalk, hopen, hput, hrm⟩ := hup
  have hw := walked_eq w con names hall hwords hnd hfresh
  have hperm : (walked w con names).Perm (names.map (backupFile (workspace w con))) := by
    rw [hw]; exact List.perm_insertionSort _ _
  have hlen : (walked w con names).length = names.length := by
    rw [hperm.length_eq, List.length_map]
  obtain ⟨d1, _, d4⟩ := dumpLoop_ok w con (workspace w con) names 0 (fsAtDumps w con)
    (by intro j hj; simpa using hall j hj)
  obtain ⟨u1, u2⟩ := uploadLoop_ok w con (timestamp w.now) hwalk (walked w con names) 0
    (by intro j hj; simpa using hopen j (hlen ▸ hj))
    (by intro j hj; simpa using hput j (hlen ▸ hj))
  have hm := main_of_reachesDumps w con names hd
  simp only [walked] at u1 u2
  simp only [d1, hsess, u1, hrm, if_true, if_false, Bool.true_eq_false] at hm
  rw [shEffect_cleanupCmd w names.length _ (workspace w con) hwords.2.2.1
    (workspace_ne_nil w con), clean_workspace] at hm
  have hp : putCalls (main w).trace = (walked w con names).map
      (fun p => (con.S3BucketName, remoteKey (timestamp w.now) (base p), p, true)) := by
    rw [hm]
    simp [putCalls_append, putCalls_prelude, d4, putCalls, u2, walked]
  refine ⟨?_, ?_, ?_, ?_, ?_, ?_⟩
  · rw [hp, List.length_map, hlen]
  · have hk : putKeys (main w).trace
        = (walked w con names).map (fun p => remoteKey (timestamp w.now) (base p)) := by
      simp [putKeys, hp]
    rw [hk]
    have hmap := hperm.map (fun p => remoteKey (timestamp w.now) (base p))
    refine hmap.trans (List.Perm.of_eq ?_)
    rw [List.map_map]
    apply List.map_congr_left
    intro n hn
    simp only [Function.comp, workspace]
    rw [base_backupFile _ n (hplain n hn), remoteKey_artifact w.now n (hplain n hn)]
    rfl
  · intro b hb
    simp only [putBuckets, hp, List.map_map, List.mem_map, Function.comp] at hb
    obtain ⟨_, _, rfl⟩ := hb
    rfl
  · rw [hm]
    simp [FS.removeAll]
  · rw [hm]
    intro p hp2
    simp only [FS.removeAll, List.mem_filter, Bool.not_eq_true', Bool.or_eq_false_iff,
      decide_eq_false_iff_not] at hp2
    exact hp2.2
  · rw [hm]

/-- Witness for claim C3 at the sample run over `app` and `analytics`. -/
theorem full_run_uploads_every_artifact_witness :
    plainWords sampleWorld sampleConfig ["app".toList, "analytics".toList] ∧
    (putCalls (main sampleWorld).trace).length = ["app".toList, "analytics".toList].length ∧
    (putKeys (main sampleWorld).trace).Perm
      (["app".toList, "analytics".toList].map (specKey (timestamp sampleWorld.now))) ∧
    (∀ b ∈ putBuckets (main sampleWorld).trace, b = sampleConfig.S3BucketName) ∧
    workspace sampleWorld sampleConfig ∉ (main sampleWorld).fs.dirs ∧
    (∀ p ∈ (main sampleWorld).fs.files, p ≠ workspace sampleWorld sampleConfig ∧
      isUnder (workspace sampleWorld sampleConfig) p = false) ∧
    (main sampleWorld).exitCode = 0 :=
  have hwords : plainWords sampleWorld sampleConfig ["app".toList, "analytics".toList] :=
    ⟨⟨by unfold Plain; decide, by decide⟩, ⟨by unfold Plain; decide, by decide⟩,
     ⟨by unfold Plain; decide, by decide⟩, by unfold shWord Plain; decide⟩
  ⟨hwords,
   full_run_uploads_every_artifact sampleWorld sampleConfig
    ["app".toList, "analytics".toList]
    ⟨⟨rfl, rfl, ⟨_, _, rfl, rfl⟩, rfl⟩, fun _ _ => rfl, rfl⟩
    ⟨rfl, fun _ _ => rfl, fun _ _ => rfl, rfl⟩
    (fun p hp => absurd hp (List.not_mem_nil p))
    (by decide) hwords⟩

/-- Claim C3 fails as stated: in the run over the single database `../app`
the workspace is fresh and no step fails, yet the dump is written to
`/var/backups/app_backup.sql`, outside the workspace, no `PutObject` call is
made at all, and the run exits with status 0 leaving that file behind. -/
theorem escaped_artifact_is_not_uploaded :
    reachesUploads dotDotWorld sampleConfig ["../app".toList] ∧
    uploadsSucceed dotDotWorld ["../app".toList].length ∧
    freshWorkspace dotDotWorld sampleConfig ∧
    ["../app".toList].Nodup ∧
    execArgvs (main dotDotWorld).trace =
      [["sh".toList, "-c".toList,
        "psql -U postgres -h localhost ../app > /var/backups/app_backup.sql".toList],
       ["sh".toList, "-c".toList, "rm -R /var/backups/2024-01-01_00-00-00".toList]] ∧
    (putCalls (main dotDotWorld).trace).length = 0 ∧
    (main dotDotWorld).fs.files = ["/var/backups/app_backup.sql".toList] ∧
    (main dotDotWorld).exitCode = 0 :=
  ⟨⟨⟨rfl, rfl, ⟨_, _, rfl, rfl⟩, rfl⟩, fun _ _ => rfl, rfl⟩,
   ⟨rfl, fun _ _ => rfl, fun _ _ => rfl, rfl⟩,
   fun p hp => absurd hp (List.not_mem_nil p),
   by decide, by decide, by decide, by decide, by decide⟩

/-! ## Command lines the shell splits -/

/-- A database name with a blank is split by the shell: for `my db` the
redirection target is `<workspace>/my`, and that file is what is uploaded. -/
theorem blank_in_name_splits_command :
    shParse (bkpcmd sampleConfig "my db".toList
        (backupFile "/var/backups/2024-01-01_00-00-00".toList "my db".toList))
      = some ⟨["psql".toList, "-U".toList, "postgres".toList, "-h".toList,
          "localhost".toList, "my".toList, "db".toList, "db_backup.sql".toList],
          ["/var/backups/2024-01-01_00-00-00/my".toList]⟩ ∧
    putCalls (main blankNameWorld).trace =
      [("backups".toList, "dbbackup/2024-01-01_00-00-00/my".toList,
        "/var/backups/2024-01-01_00-00-00/my".toList, true)] ∧
    (main blankNameWorld).exitCode = 0 := by
  decide

/-- Two distinct database names that agree up to their first blank are dumped
to the same file: the run over `a b` and `a c` uploads one object. -/
theorem blank_in_names_merges_artifacts :
    putKeys (main twoBlankNamesWorld).trace = ["dbbackup/2024-01-01_00-00-00/a".toList] ∧
    (main twoBlankNamesWorld).exitCode = 0 := by
  decide

/-- A root directory with a blank: the dumps are redirected to `/var/my`,
nothing is uploaded, and the cleanup removes `/var/my` and
`backups/2024-01-01_00-00-00` while the workspace directory remains. -/
theorem blank_in_backupDir_leaves_workspace :
    execArgvs (main blankDirWorld).trace =
      [["sh".toList, "-c".toList, ("psql -U postgres -h localhost app > /var/my " ++
          "backups/2024-01-01_00-00-00/app_backup.sql").toList],
       ["sh".toList, "-c".toList, ("psql -U postgres -h localhost analytics > /var/my " ++
          "backups/2024-01-01_00-00-00/analytics_backup.sql").toList],
       ["sh".toList, "-c".toList, "rm -R /var/my backups/2024-01-01_00-00-00".toList]] ∧
    putCalls (main blankDirWorld).trace = [] ∧
    (main blankDirWorld).fs.dirs = ["/var/my backups/2024-01-01_00-00-00".toList] ∧
    (main blankDirWorld).exitCode = 0 := by
  decide

/-! ## The exit status and the ignored errors -/

/-- The exit status of `main` is 0 in two cases only: a dump failed and `main`
returned, or every step from the configuration to the cleanup succeeded. -/
theorem exitCode_zero_iff (w : World) :
    (main w).exitCode = 0 ↔
      ∃ con names, reachesDumps w con names ∧
        ((dumpLoop w con (workspace w con) names 0 (fsAtDumps w con)).2.2 = false ∨
         (w.sessionOk = true ∧
          (uploadLoop w con (timestamp w.now) (walked w con names) 0).2 = true ∧
          w.rmOk = true)) := by
  constructor
  · intro h
    cases hc : w.config with
    | readError => simp [main, hc] at h
    | parseError => simp [main, hc] at h
    | loaded con =>
      cases ho : w.sqlOpenOk
      · simp [main, hc, ho] at h
      · cases hq : w.query with
        | error => simp [main, hc, ho, hq] at h
        | rows rs e =>
          cases hs : scanRows rs [] with
          | none => simp [main, hc, ho, hq, hs] at h
          | some names =>
            cases he : w.setenvOk
            · simp [main, hc, ho, hq, hs, he] at h
            · have hreach : reachesDumps w con names := ⟨hc, ho, ⟨rs, e, hq, hs⟩, he⟩
              refine ⟨con, names, hreach, ?_⟩
              rw [main_of_reachesDumps w con names hreach] at h
              unfold walked
              by_cases h1 : (dumpLoop w con (workspace w con) names 0 (fsAtDumps w con)).2.2
                  = false
              · exact Or.inl h1
              · refine Or.inr ?_
                cases h2 : w.sessionOk
                · simp [h1, h2] at h
                · cases h3 : (uploadLoop w con (timestamp w.now)
                    (walkFiles (dumpLoop w con (workspace w con) names 0 (fsAtDumps w con)).2.1
                      (join [con.BackupDir, timestamp w.now])) 0).2
                  · simp [h1, h2, h3] at h
                  · cases h4 : w.rmOk
                    · simp [h1, h2, h3, h4] at h
                    · exact ⟨rfl, rfl, rfl⟩
  · rintro ⟨con, names, hreach, h⟩
    rw [main_of_reachesDumps w con names hreach]
    unfold walked at h
    rcases h with h | ⟨h1, h2, h3⟩
    · simp [h]
    · by_cases hd : (dumpLoop w con (workspace w con) names 0 (fsAtDumps w con)).2.2 = false
      · simp [hd]
      · simp [hd, h1, h2, h3]

/-- The outcome of `main` does not depend on whether row iteration ended at
the end of the result set or with an error. -/
theorem main_ignores_iteration_error (w : World) (rs : List Row) (e : Bool) :
    main { w with query := QueryResult.rows rs e }
      = main { w with query := QueryResult.rows rs (!e) } := by
  have hd : ∀ con dir names i fs,
      dumpLoop { w with query := QueryResult.rows rs e } con dir names i fs
        = dumpLoop { w with query := QueryResult.rows rs (!e) } con dir names i fs := by
    intro con dir names
    induction names with
    | nil => intro i fs; rfl
    | cons n rest ih =>
      intro i fs
      have hs : shEffect { w with query := QueryResult.rows rs e } i
            (bkpcmd con n (backupFile dir n)) fs
          = shEffect { w with query := QueryResult.rows rs (!e) } i
            (bkpcmd con n (backupFile dir n)) fs := rfl
      simp only [dumpLoop, ih, hs]
  have hu : ∀ con ts files i,
      uploadLoop { w with query := QueryResult.rows rs e } con ts files i
        = uploadLoop { w with query := QueryResult.rows rs (!e) } con ts files i := by
    intro con ts files
    induction files with
    | nil => intro i; rfl
    | cons f rest ih => intro i; simp [uploadLoop, ih]
  have hc : ∀ n dir fs, shEffect { w with query := QueryResult.rows rs e } n dir fs
      = shEffect { w with query := QueryResult.rows rs (!e) } n dir fs := fun _ _ _ => rfl
  simp only [main, hd, hu, hc]

/-- A failed `os.MkdirAll` stops nothing: whenever the configuration loads and
the connection opens, the catalog query is made. -/
theorem mkdir_failure_never_aborts (w : World) (con : Config)
    (hc : w.config = ConfigLoad.loaded con) (hm : w.mkdirOk = false)
    (ho : w.sqlOpenOk = true) : Event.query catalogQuery ∈ (main w).trace := by
  simp only [main, hc, ho, hm]
  cases w.query with
  | error => simp
  | rows rs e =>
    cases hs : scanRows rs [] with
    | none => simp [hs]
    | some names =>
      simp only [hs]
      split_ifs <;> first | contradiction | simp


end DbToS3
